import Mathlib

/-!
Verification of the department/user synchronisation program (sync360.py).

The program is shallowly embedded: the remote HTTP service is modelled by an
environment of response functions (`Env`), the global department cache and the
stream of issued remote calls by a `World`, and each Python function by a Lean
function of the same name.  Machine behaviour that matters to the claims is
kept faithful: dictionary insertion order (association lists), Python
truthiness on strings and options, the `requests` behaviour that a plain
`S.get`/`S.post`/`S.patch` call returns a `Response` object without raising for
HTTP error statuses (only `raise_for_status` raises), and Kahn's algorithm
with a FIFO queue.
-/

/-- One row of departments.csv, after `load_csv` stripping.  A missing or empty
CSV field is the empty string, matching `row.get(...) or None` truthiness. -/
structure DeptRow where
  external_id : String
  name : String
  parent_external_id : String
  label : String
  description : String
deriving DecidableEq, Repr

/-- One row of users.csv.  Fields read with `u.get(k, default)` are `Option`s:
`none` models an absent CSV column. -/
structure UserRow where
  nickname : String
  first : String
  last : String
  dept_external_id : String
  middle : Option String
  position : Option String
  language : Option String
  timezone : Option String
  externalId : Option String
  password : Option String
  passwordChangeRequired : Option String
deriving DecidableEq, Repr

/-- A department dict as held in `DEPT_CACHE` (server JSON).  A missing
`externalId` is the empty string, matching `d.get("externalId") or ""`. -/
structure RemoteDept where
  id : String
  externalId : String
  name : String
  label : String
  description : String
deriving DecidableEq, Repr

/-- Source `pe = r.get("parent_external_id") or None`. -/
def peOf (r : DeptRow) : Option String :=
  if r.parent_external_id = "" then none else some r.parent_external_id

/-- Source `r.get(k) or None` for an optional string field. -/
def optOf (s : String) : Option String :=
  if s = "" then none else some s

/-- Python truthiness on an optional string (`if label:`): `None` and `""` are
falsy. -/
def truthyOpt (o : Option String) : Option String :=
  match o with
  | none => none
  | some s => if s = "" then none else some s

/-- The PATCH body built at sync360.py lines 91-95. -/
structure UpdatePayload where
  externalId : String
  label : Option String
  description : Option String
deriving DecidableEq, Repr

/-- The POST body built at sync360.py lines 117-126. -/
structure CreatePayload where
  name : String
  externalId : String
  parentId : Option String
  label : Option String
  description : Option String
deriving DecidableEq, Repr

def mkUpdatePayload (external_id : String) (label description : Option String) :
    UpdatePayload :=
  { externalId := external_id, label := truthyOpt label,
    description := truthyOpt description }

def mkCreatePayload (name external_id : String)
    (parent_id label description : Option String) : CreatePayload :=
  { name := name, externalId := external_id, parentId := truthyOpt parent_id,
    label := truthyOpt label, description := truthyOpt description }

/-- The JSON body sent by `create_user` (sync360.py lines 209-223). -/
structure UserBody where
  nickname : String
  departmentId : String
  first : String
  last : String
  middle : String
  position : String
  language : String
  timezone : String
  externalId : String
  password : String
  passwordChangeRequired : Bool
deriving DecidableEq, Repr

/-- Source `str(x).lower()` as used on line 222.  (Equivalent to `String.toLower`,
restated through `List.map` so that it evaluates in the kernel.) -/
def pyLower (s : String) : String := String.mk (s.data.map Char.toLower)

def create_user_body (u : UserRow) (dept_id : String) : UserBody :=
  { nickname := u.nickname
    departmentId := dept_id
    first := u.first
    last := u.last
    middle := u.middle.getD ""
    position := u.position.getD ""
    language := u.language.getD "ru"
    timezone := u.timezone.getD "Europe/Moscow"
    externalId := u.externalId.getD ""
    password := u.password.getD ""
    passwordChangeRequired := pyLower (u.passwordChangeRequired.getD "true") = "true" }

/-- An HTTP response to a department call: status code plus parsed JSON body
(the body is only inspected on success paths). -/
structure DeptResp where
  status : Nat
  body : RemoteDept
deriving DecidableEq, Repr

/-- An HTTP response to the user-creation call; `id` is `r.json().get("id")`. -/
structure UserResp where
  status : Nat
  id : Option String
deriving DecidableEq, Repr

/-- A remote call issued by the program (mutations plus cache refreshes). -/
inductive Call where
  | patchDept (id : String) (p : UpdatePayload)
  | postDept (p : CreatePayload)
  | postUser (b : UserBody)
  | refresh
deriving DecidableEq, Repr

/-- The remote service, as response oracles for each operation, plus the
department list a cache refresh returns. -/
structure Env where
  patchResp : String → UpdatePayload → DeptResp
  postDeptResp : CreatePayload → DeptResp
  refreshList : List RemoteDept
  postUserResp : UserBody → UserResp

/-- Program state: the `DEPT_CACHE` global and the trace of issued calls. -/
structure World where
  cache : List RemoteDept
  calls : List Call
deriving DecidableEq, Repr

/-- Errors the program can raise. `http s` is a propagated
`requests.HTTPError` with status `s`; `cycleDetected` is the ValueError of
line 180; `parentNotCreated` the RuntimeError of line 192; `keyError` a Python
KeyError; `unresolvedDepartment` the ValueError of line 342;
`retriesExhausted` the RuntimeError of line 35. -/
inductive Err where
  | http (status : Nat)
  | retriesExhausted
  | cycleDetected
  | parentNotCreated (pe : String)
  | keyError (k : String)
  | unresolvedDepartment (d : String)
deriving DecidableEq, Repr

/-- Outcome of `backoff_retry`: either the propagated non-transient
`HTTPError` raised by `fn`, or the RuntimeError after exhausting retries. -/
inductive RetryErr where
  | http (status : Nat)
  | maxRetries
deriving DecidableEq, Repr

deriving instance DecidableEq for Except

/-- The transient-status test of sync360.py line 31. -/
def transientStatus (s : Nat) : Bool :=
  s = 429 || s = 500 || s = 502 || s = 503 || s = 504

/-- Source `backoff_retry` (sync360.py lines 26-35).  `fn i` is attempt `i`:
`Except.error s` models `fn()` raising `requests.HTTPError` with response
status `s`; `Except.ok a` a normal return.  Returns the result together with
the list of backoff sleeps (`base * 2 ** i` seconds) performed. -/
def backoff_retry_go {α : Type} (fn : Nat → Except Nat α) (base : ℚ) :
    Nat → Nat → Except RetryErr α × List ℚ
  | _, 0 => (Except.error RetryErr.maxRetries, [])
  | i, fuel + 1 =>
    match fn i with
    | Except.ok a => (Except.ok a, [])
    | Except.error s =>
      if transientStatus s then
        let r := backoff_retry_go fn base (i + 1) fuel
        (r.1, base * 2 ^ i :: r.2)
      else (Except.error (RetryErr.http s), [])

def backoff_retry {α : Type} (fn : Nat → Except Nat α) (retries : Nat) (base : ℚ) :
    Except RetryErr α × List ℚ :=
  backoff_retry_go fn base 0 retries

/-- How each call site uses the wrapper: `backoff_retry(lambda: S.post(...))`.
The lambda returns the `requests.Response` without raising for HTTP error
statuses, so `fn` always succeeds on the first attempt. -/
def site_call {α : Type} (resp : α) : Except RetryErr α × List ℚ :=
  backoff_retry (fun _ => Except.ok resp) 10 1

/-- A generic HTTP response used to state the retry-policy claim. -/
structure HttpResp (α : Type) where
  status : Nat
  body : α
deriving DecidableEq, Repr

/-- The call-site pattern used by every remote operation of the program:
`r = backoff_retry(lambda: S.get(url)); r.raise_for_status()`, where the
server answers attempt `i` with `resp i`. -/
def request_then_raise {α : Type} (resp : Nat → HttpResp α) (retries : Nat)
    (base : ℚ) : Except RetryErr (HttpResp α) × List ℚ :=
  let r := backoff_retry (fun i => Except.ok (resp i)) retries base
  (match r.1 with
   | Except.ok x =>
     if 400 ≤ x.status then Except.error (RetryErr.http x.status) else Except.ok x
   | Except.error e => Except.error e,
   r.2)

/-- Source `find_department_by_external_id` (lines 64-69): first cache entry whose
`externalId` (empty for missing) equals `external_id`. -/
def find_department_by_external_id (cache : List RemoteDept) (external_id : String) :
    Option RemoteDept :=
  cache.find? (fun d => d.externalId = external_id)

/-- Source `find_department_by_name` (lines 71-76): first cache entry with that name,
regardless of its `externalId`. -/
def find_department_by_name (cache : List RemoteDept) (name : String) :
    Option RemoteDept :=
  cache.find? (fun d => d.name = name)

/-- Source `DEPT_CACHE[i] = updated` for the first `i` with `dept["id"] == id`
(lines 107-110). -/
def replace_by_id (cache : List RemoteDept) (id : String) (newd : RemoteDept) :
    List RemoteDept :=
  match cache with
  | [] => []
  | d :: t => if d.id = id then newd :: t else d :: replace_by_id t id newd

/-- The creation branch of `ensure_department` (lines 117-153): POST the
department; on 409 refresh the cache and retry the external-id lookup,
returning the hit or re-raising the 409; on other error statuses propagate;
on success stamp `externalId` locally and append to the cache. -/
def create_department (env : Env) (w : World) (name external_id : String)
    (parent_id label description : Option String) : World × Except Err String :=
  let payload := mkCreatePayload name external_id parent_id label description
  let w1 : World := { cache := w.cache, calls := w.calls ++ [Call.postDept payload] }
  match (site_call (env.postDeptResp payload)).1 with
  | Except.error RetryErr.maxRetries => (w1, Except.error Err.retriesExhausted)
  | Except.error (RetryErr.http s) => (w1, Except.error (Err.http s))
  | Except.ok r =>
    if r.status = 409 then
      let w2 : World := { cache := env.refreshList, calls := w1.calls ++ [Call.refresh] }
      match find_department_by_external_id w2.cache external_id with
      | some d => (w2, Except.ok d.id)
      | none => (w2, Except.error (Err.http 409))
    else if 400 ≤ r.status then (w1, Except.error (Err.http r.status))
    else
      let created : RemoteDept := { r.body with externalId := external_id }
      ({ cache := w1.cache ++ [created], calls := w1.calls }, Except.ok created.id)

/-- Source `ensure_department` (lines 78-153).  Step 1: external-id lookup (only when
`external_id` is truthy).  Step 2: name lookup; if the first name match lacks
an `externalId`, PATCH it; on HTTP error fall through to creation.  Step 3:
creation via `create_department`. -/
def ensure_department (env : Env) (w : World) (name external_id : String)
    (parent_id label description : Option String) : World × Except Err String :=
  match (if external_id ≠ "" then find_department_by_external_id w.cache external_id
         else none) with
  | some d => (w, Except.ok d.id)
  | none =>
    match find_department_by_name w.cache name with
    | some d2 =>
      if d2.externalId = "" then
        let upayload := mkUpdatePayload external_id label description
        let w1 : World := { cache := w.cache, calls := w.calls ++ [Call.patchDept d2.id upayload] }
        match (site_call (env.patchResp d2.id upayload)).1 with
        | Except.error RetryErr.maxRetries => (w1, Except.error Err.retriesExhausted)
        | Except.error (RetryErr.http _) =>
          create_department env w1 name external_id parent_id label description
        | Except.ok r =>
          if 400 ≤ r.status then
            create_department env w1 name external_id parent_id label description
          else
            let updated : RemoteDept := { r.body with externalId := external_id }
            ({ cache := replace_by_id w1.cache d2.id updated, calls := w1.calls },
             Except.ok updated.id)
      else create_department env w name external_id parent_id label description
    | none => create_department env w name external_id parent_id label description

/-- A Python dict with insertion-order iteration, as an association list.
`alGet` is `d.get(k)`. -/
def alGet {α : Type} : List (String × α) → String → Option α
  | [], _ => none
  | (k', v) :: t, k => if k' = k then some v else alGet t k

/-- Source `d.get(k, dflt)` / `d[k]` with a defaultdict default. -/
def alGetD {α : Type} (l : List (String × α)) (k : String) (d : α) : α :=
  (alGet l k).getD d

/-- Source `k in d`. -/
def alContains {α : Type} (l : List (String × α)) (k : String) : Bool :=
  (alGet l k).isSome

/-- Source `d[k] = v`: overwrite in place, or append a new key. -/
def alSet {α : Type} : List (String × α) → String → α → List (String × α)
  | [], k, v => [(k, v)]
  | (k', v') :: t, k, v =>
    if k' = k then (k, v) :: t else (k', v') :: alSet t k v

/-- Source `d[k] = f(d[k])` on a `defaultdict` with default `dflt`
(`indeg[x] += 1`, `indeg[x] -= 1`). -/
def alUpd : List (String × Int) → String → (Int → Int) → Int → List (String × Int)
  | [], k, f, dflt => [(k, f dflt)]
  | (k', v) :: t, k, f, dflt =>
    if k' = k then (k', f v) :: t else (k', v) :: alUpd t k f dflt

/-- Source `d.setdefault(k, dflt)`. -/
def alSetdefault : List (String × Int) → String → Int → List (String × Int)
  | [], k, dflt => [(k, dflt)]
  | (k', v) :: t, k, dflt =>
    if k' = k then (k', v) :: t else (k', v) :: alSetdefault t k dflt

/-- Source `graph[k].append(x)` on a `defaultdict(list)`. -/
def gAppend : List (String × List String) → String → String → List (String × List String)
  | [], k, x => [(k, [x])]
  | (k', v) :: t, k, x =>
    if k' = k then (k', v ++ [x]) :: t else (k', v) :: gAppend t k x

/-- One entry of the final results list (lines 228, 230). -/
structure UserResult where
  status : String
  nickname : String
  id : Option String
deriving DecidableEq, Repr

/-- Source `create_user` (lines 207-230). -/
def create_user (env : Env) (w : World) (u : UserRow)
    (ext_to_id : List (String × String)) : World × Except Err UserResult :=
  match alGet ext_to_id u.dept_external_id with
  | none => (w, Except.error (Err.keyError u.dept_external_id))
  | some dept_id =>
    let body := create_user_body u dept_id
    let w1 : World := { cache := w.cache, calls := w.calls ++ [Call.postUser body] }
    match (site_call (env.postUserResp body)).1 with
    | Except.error RetryErr.maxRetries => (w1, Except.error Err.retriesExhausted)
    | Except.error (RetryErr.http s) => (w1, Except.error (Err.http s))
    | Except.ok r =>
      if r.status = 409 then
        (w1, Except.ok { status := "exists", nickname := u.nickname, id := none })
      else if 400 ≤ r.status then (w1, Except.error (Err.http r.status))
      else (w1, Except.ok { status := "created", nickname := u.nickname, id := r.id })

/-- Source `by_ext = {r["external_id"]: r for r in dept_rows}` (line 157). -/
def by_ext (rows : List DeptRow) : List (String × DeptRow) :=
  rows.foldl (fun m r => alSet m r.external_id r) []

/-- One iteration of the graph/in-degree build loop (lines 161-167). -/
def buildStep (bx : List (String × DeptRow))
    (acc : List (String × List String) × List (String × Int)) (r : DeptRow) :
    List (String × List String) × List (String × Int) :=
  match peOf r with
  | some pe =>
    if alContains bx pe then
      (gAppend acc.1 pe r.external_id, alUpd acc.2 r.external_id (fun t => t + 1) 0)
    else (acc.1, alSetdefault acc.2 r.external_id 0)
  | none => (acc.1, alSetdefault acc.2 r.external_id 0)

/-- Source `graph` and `indeg` after the build loop. -/
def buildGI (rows : List DeptRow) : List (String × List String) × List (String × Int) :=
  rows.foldl (buildStep (by_ext rows)) ([], [])

/-- The in-set parent edges `(parent_external_id, external_id)` the build loop
inserts, in insertion order. -/
def edgesAux (bx : List (String × DeptRow)) (rows : List DeptRow) :
    List (String × String) :=
  rows.filterMap (fun r =>
    match peOf r with
    | some pe => if alContains bx pe then some (pe, r.external_id) else none
    | none => none)

def edges (rows : List DeptRow) : List (String × String) :=
  edgesAux (by_ext rows) rows

/-- Processing of one graph child `v` inside the Kahn loop (lines 174-177):
decrement `indeg[v]`, enqueue when it reaches zero. -/
def decStep (p : List String × List (String × Int)) (v : String) :
    List String × List (String × Int) :=
  let ind2 := alUpd p.2 v (fun t => t - 1) 0
  if alGetD ind2 v 0 = 0 then (p.1 ++ [v], ind2) else (p.1, ind2)

/-- Sum of the positive in-degrees: with the queue length this bounds the
remaining iterations of the Kahn loop. -/
def intSum (l : List (String × Int)) : Nat :=
  (l.map (fun kv => kv.2.toNat)).sum

/-- The Kahn `while q:` loop (lines 171-177), fuel-indexed.  The fuel
`q.length + intSum ind` supplied by `kahnRun` strictly dominates the loop's
iteration count, so the fuel-exhaustion arm (which requires a non-empty queue)
is never taken. -/
def kahnGo (g : List (String × List String)) :
    Nat → List String → List (String × Int) → List String → List String
  | _, [], _, order => order
  | 0, _ :: _, _, order => order
  | Nat.succ fuel, u :: qt, ind, order =>
    let qi := (alGetD g u []).foldl decStep (qt, ind)
    kahnGo g fuel qi.1 qi.2 (order ++ [u])

def kahnRun (g : List (String × List String)) (q : List String)
    (ind : List (String × Int)) (order : List String) : List String :=
  kahnGo g (q.length + intSum ind) q ind order

/-- The topological order computed by lines 155-177: the build loop followed
by the Kahn loop, seeded with the zero-in-degree keys in insertion order. -/
def topoOrder (rows : List DeptRow) : List String :=
  let gi := buildGI rows
  let q0 := (gi.2.filter (fun kv => kv.2 = 0)).map Prod.fst
  kahnRun gi.1 q0 gi.2 []

/-- The creation loop of `build_hierarchy_and_create` (lines 183-200): walk
the order, resolve the parent through the running `ext_to_id` mapping, apply
the parent-already-created safety check, upsert, and record the mapping. -/
def createLoop (env : Env) (bx : List (String × DeptRow)) :
    List String → List (String × String) → World →
    World × Except Err (List (String × String))
  | [], m, w => (w, Except.ok m)
  | ext :: rest, m, w =>
    match alGet bx ext with
    | none => (w, Except.error (Err.keyError ext))
    | some r =>
      let parent_id : Option String :=
        match peOf r with
        | none => none
        | some p => alGet m p
      let bad : Bool :=
        match peOf r with
        | some p => parent_id.isNone && alContains bx p
        | none => false
      if bad then (w, Except.error (Err.parentNotCreated r.parent_external_id))
      else
        let res := ensure_department env w r.name r.external_id parent_id
          (optOf r.label) (optOf r.description)
        match res.2 with
        | Except.error e => (res.1, Except.error e)
        | Except.ok did => createLoop env bx rest (alSet m ext did) res.1

/-- Source `build_hierarchy_and_create` (lines 155-201): cycle check on the order's
length, then top-down creation. -/
def build_hierarchy_and_create (env : Env) (w : World) (rows : List DeptRow) :
    World × Except Err (List (String × String)) :=
  let order := topoOrder rows
  if order.length ≠ rows.length then (w, Except.error Err.cycleDetected)
  else createLoop env (by_ext rows) order [] w

/-- The user-creation loop of `__main__` (lines 339-346): membership check in
`ext_to_id` first, then `create_user`; any error aborts the batch. -/
def userLoop (env : Env) (m : List (String × String)) :
    List UserRow → List UserResult → World → World × Except Err (List UserResult)
  | [], results, w => (w, Except.ok results)
  | u :: rest, results, w =>
    if alContains m u.dept_external_id then
      let res := create_user env w u m
      match res.2 with
      | Except.error e => (res.1, Except.error e)
      | Except.ok r => userLoop env m rest (results ++ [r]) res.1
    else (w, Except.error (Err.unresolvedDepartment u.dept_external_id))

/-- Source `validate_departments_csv` (lines 245-257), as the predicate it enforces:
required fields present and non-empty, no duplicate `external_id`. -/
def validate_departments_csv (rows : List DeptRow) : Bool :=
  rows.all (fun r => r.external_id ≠ "" && r.name ≠ "") &&
  (rows.map DeptRow.external_id).all
    (fun x => (rows.map DeptRow.external_id).count x ≤ 1)

/-- The children list the build loop associates to `u`: targets of the edges
leaving `u`, in insertion order. -/
def childrenOf (E : List (String × String)) (u : String) : List String :=
  (E.filter (fun e => e.1 = u)).map Prod.snd

/-- In-degree of `v` in the edge list `E` (with multiplicity). -/
def edgeTgts (E : List (String × String)) (v : String) : Nat :=
  E.countP (fun e => e.2 = v)

/-- Number of edges into `v` whose source has already been output. -/
def edgeDone (E : List (String × String)) (order : List String) (v : String) : Nat :=
  E.countP (fun e => decide (e.1 ∈ order) && decide (e.2 = v))

/-- A directed cycle in `E`: a chain of edges leading from `v` through `c`
back to `v`. -/
def IsCycle (E : List (String × String)) (v : String) (c : List String) : Prop :=
  List.Chain (fun a b => (a, b) ∈ E) v (c ++ [v])

/-- Invariant of the Kahn loop state (queue, in-degree map, emitted order). -/
structure KInv (E : List (String × String)) (nodes : List String)
    (q : List String) (ind : List (String × Int)) (order : List String) : Prop where
  nodup : (order ++ q).Nodup
  subO : ∀ v ∈ order, v ∈ nodes
  subQ : ∀ v ∈ q, v ∈ nodes
  ind_eq : ∀ v, alGetD ind v 0 = (edgeTgts E v : Int) - (edgeDone E order v : Int)
  q_done : ∀ v ∈ q, ∀ e ∈ E, e.2 = v → e.1 ∈ order
  ord_done : ∀ o1 v o2, order = o1 ++ v :: o2 → ∀ e ∈ E, e.2 = v → e.1 ∈ o1
  pending : ∀ v ∈ nodes, v ∉ order → v ∉ q → 0 < alGetD ind v 0

/-- What holds of the list the Kahn loop finally returns, relative to the
order already emitted on entry. -/
structure KFinal (E : List (String × String)) (nodes : List String)
    (order fin : List String) : Prop where
  nodup : fin.Nodup
  sub : ∀ v ∈ fin, v ∈ nodes
  ext : ∃ t, fin = order ++ t
  done : ∀ o1 v o2, fin = o1 ++ v :: o2 → ∀ e ∈ E, e.2 = v → e.1 ∈ o1
  closed : ∀ v ∈ order, v ∈ fin
  maximal : ∀ v ∈ nodes, v ∉ fin → ∃ e ∈ E, e.2 = v ∧ e.1 ∉ fin

/-- Example departments: A is a root, B's parent is A, C's parent is B;
input order [C, B, A] as in the spec's example. -/
def exC : DeptRow := ⟨"C", "Gamma", "B", "", ""⟩
def exB : DeptRow := ⟨"B", "Beta", "A", "", ""⟩
def exA : DeptRow := ⟨"A", "Alpha", "", "", ""⟩
def exRows : List DeptRow := [exC, exB, exA]

/-- Example cyclic input: X's parent is Y and Y's parent is X. -/
def exX : DeptRow := ⟨"X", "Ex", "Y", "", ""⟩
def exY : DeptRow := ⟨"Y", "Why", "X", "", ""⟩
def cycRows : List DeptRow := [exX, exY]

/-- An environment whose department-creation calls succeed, echoing a remote
id derived from the external id. -/
def okEnv : Env :=
  { patchResp := fun _ _ => ⟨200, ⟨"pid", "", "", "", ""⟩⟩
    postDeptResp := fun p => ⟨201, ⟨"id-" ++ p.externalId, "", p.name, "", ""⟩⟩
    refreshList := []
    postUserResp := fun _ => ⟨200, some "u1"⟩ }

/-- A cache that already contains the three example departments. -/
def exCache : List RemoteDept :=
  [⟨"ra", "A", "Alpha", "", ""⟩, ⟨"rb", "B", "Beta", "", ""⟩,
   ⟨"rc", "C", "Gamma", "", ""⟩]

/-- Cache for the C5 counterexample: a same-named department *with* an
`externalId` precedes the legacy one without. -/
def cexCache : List RemoteDept :=
  [⟨"1", "Z", "X", "", ""⟩, ⟨"2", "", "X", "", ""⟩]

/-- Environment for the C5 counterexample. -/
def cexEnv : Env :=
  { patchResp := fun _ _ => ⟨200, ⟨"2", "", "X", "", ""⟩⟩
    postDeptResp := fun _ => ⟨201, ⟨"99", "", "X", "", ""⟩⟩
    refreshList := []
    postUserResp := fun _ => ⟨200, none⟩ }

/-- Environment for the C5 amended witness: a legacy cache whose first "X"
entry lacks an externalId, and a PATCH endpoint echoing the entry. -/
def adoptCache : List RemoteDept := [⟨"7", "", "X", "", ""⟩]
def adoptEnv : Env :=
  { patchResp := fun id p => ⟨200, ⟨id, p.externalId, "X", "", ""⟩⟩
    postDeptResp := fun _ => ⟨201, ⟨"new", "", "", "", ""⟩⟩
    refreshList := []
    postUserResp := fun _ => ⟨200, none⟩ }

/-- Environment for the C6 witness: creation always answers 409, and the
refreshed listing contains department "E". -/
def conflictEnvFound : Env :=
  { patchResp := fun _ _ => ⟨200, ⟨"", "", "", "", ""⟩⟩
    postDeptResp := fun _ => ⟨409, ⟨"", "", "", "", ""⟩⟩
    refreshList := [⟨"srv", "E", "En", "", ""⟩]
    postUserResp := fun _ => ⟨200, none⟩ }

/-- Same, but the refreshed listing still lacks department "E". -/
def conflictEnvMissing : Env :=
  { patchResp := fun _ _ => ⟨200, ⟨"", "", "", "", ""⟩⟩
    postDeptResp := fun _ => ⟨409, ⟨"", "", "", "", ""⟩⟩
    refreshList := [⟨"srv", "OTHER", "En", "", ""⟩]
    postUserResp := fun _ => ⟨200, none⟩ }

/-- Environment whose user-creation call answers 409 (nickname collision). -/
def userConflictEnv : Env :=
  { patchResp := fun _ _ => ⟨200, ⟨"", "", "", "", ""⟩⟩
    postDeptResp := fun p => ⟨201, ⟨"id-" ++ p.externalId, "", p.name, "", ""⟩⟩
    refreshList := []
    postUserResp := fun _ => ⟨409, none⟩ }

/-- Example users. -/
def exUserU : UserRow :=
  ⟨"u.user", "U", "Userov", "A", none, none, none, none, none, none, none⟩
def exUserV : UserRow :=
  ⟨"v.user", "V", "Verov", "B", some "M", some "dev", some "en", some "UTC",
   some "x9", some "pw", some "False"⟩

/-! ### Basic reductions -/

/-- At every call site the retried lambda is a bare `S.get`/`S.post`/`S.patch`
which returns its `Response` without raising, so `backoff_retry` returns it on
the first attempt with no sleeps. -/
theorem site_call_eq {α : Type} (resp : α) : site_call resp = (Except.ok resp, []) := rfl

/-! ### C3: the retry policy, and its deadness at the call sites -/

/-- C3: For every remote operation of the directory client, the claim says a
transient status (429/500/502/503/504) is retried with backoff sleeps of
`base * 2^attempt` and exhaustion raises RetriesExhausted.  The code's
`backoff_retry` function does implement exactly that contract for an `fn`
that raises `HTTPError` (parts 2-4), but every call site passes a bare
requests lambda that never raises for an HTTP status — `raise_for_status` is
invoked only after `backoff_retry` returns — so a 503 response propagates
immediately with zero sleeps and zero retries (part 1), contradicting the
claim. -/
theorem C3_retry_policy_dead_at_call_sites :
    (request_then_raise
        (fun i => if i < 2 then (⟨503, ()⟩ : HttpResp Unit) else ⟨200, ()⟩) 10 1
      = (Except.error (RetryErr.http 503), [])) ∧
    (backoff_retry (fun i => if i < 2 then Except.error 503 else Except.ok (42 : Nat)) 10 1
      = (Except.ok 42, [1 * 2 ^ 0, 1 * 2 ^ 1])) ∧
    ((backoff_retry (fun _ => (Except.error 503 : Except Nat Nat)) 10 1).1
      = Except.error RetryErr.maxRetries) ∧
    (backoff_retry (fun i => if i = 0 then Except.error 404 else Except.ok (0 : Nat)) 10 1
      = (Except.error (RetryErr.http 404), [])) := by
  refine ⟨rfl, ?_, rfl, rfl⟩
  show (Except.ok 42, ((1 : ℚ) * 2 ^ 0) :: ((1 : ℚ) * 2 ^ 1) :: []) = _
  norm_num

/-! ### C10: user payload defaulting -/

/-- C10: the constructed create-user payload defaults `language` to "ru" and
`timezone` to "Europe/Moscow" when absent, defaults middle name, position,
externalId and password to the empty string, and sets
`passwordChangeRequired` to true exactly when the field's value, stringified
and lowercased, equals "true", defaulting to true when absent. -/
theorem C10_user_payload_defaults (u : UserRow) (d : String) :
    (u.language = none → (create_user_body u d).language = "ru") ∧
    (u.timezone = none → (create_user_body u d).timezone = "Europe/Moscow") ∧
    (u.middle = none → (create_user_body u d).middle = "") ∧
    (u.position = none → (create_user_body u d).position = "") ∧
    (u.externalId = none → (create_user_body u d).externalId = "") ∧
    (u.password = none → (create_user_body u d).password = "") ∧
    ((create_user_body u d).passwordChangeRequired = true ↔
      pyLower (u.passwordChangeRequired.getD "true") = "true") ∧
    (u.passwordChangeRequired = none →
      (create_user_body u d).passwordChangeRequired = true) := by
  refine ⟨fun h => ?_, fun h => ?_, fun h => ?_, fun h => ?_, fun h => ?_,
    fun h => ?_, ?_, fun h => ?_⟩ <;>
    (simp [create_user_body, *]; try decide)

theorem C10_witness :
    exUserU.language = none ∧
    (create_user_body exUserU "ra").language = "ru" ∧
    (create_user_body exUserU "ra").timezone = "Europe/Moscow" ∧
    (create_user_body exUserU "ra").passwordChangeRequired = true :=
  ⟨rfl, (C10_user_payload_defaults exUserU "ra").1 rfl,
   (C10_user_payload_defaults exUserU "ra").2.1 rfl,
   (C10_user_payload_defaults exUserU "ra").2.2.2.2.2.2.2 rfl⟩

/-! ### C5: legacy-department adoption -/

/-- C5, counterexample.  The cache holds a department named "X" *with* an
`externalId` first (id "1") and a legacy one without (id "2").  The claim says:
since some entry lacking an external_id has the matching name, the upsert
issues an update on that entry and returns its remote_id ("2").  The code,
however, takes the *first* name match (id "1"), sees it has an externalId,
skips adoption entirely, and creates a new department ("99") with no patch
call. -/
theorem C5_counterexample :
    (⟨"2", "", "X", "", ""⟩ : RemoteDept) ∈ cexCache ∧
    find_department_by_external_id cexCache "E" = none ∧
    ensure_department cexEnv ⟨cexCache, []⟩ "X" "E" none none none =
      ({ cache := cexCache ++ [⟨"99", "E", "X", "", ""⟩],
         calls := [Call.postDept (mkCreatePayload "X" "E" none none none)] },
       Except.ok "99") ∧
    (ensure_department cexEnv ⟨cexCache, []⟩ "X" "E" none none none).2 ≠
      Except.ok "2" := by
  refine ⟨by decide, by decide, by decide, by decide⟩

/-- C5 as amended: for every department record whose external_id is absent
from the cache and for which the *first* cache entry with exactly matching
name lacks an external_id, the upsert issues an update call setting
external_id (and label/description if provided) on that entry, overwrites the
cache entry locally, and — given that the server's update response echoes the
entry's id — returns that entry's remote_id. -/
theorem C5_first_name_match_adoption (env : Env) (w : World) (name ext : String)
    (pid l desc : Option String) (d2 : RemoteDept)
    (hext : ext ≠ "")
    (h1 : find_department_by_external_id w.cache ext = none)
    (h2 : find_department_by_name w.cache name = some d2)
    (h3 : d2.externalId = "")
    (hst : (env.patchResp d2.id (mkUpdatePayload ext l desc)).status < 400)
    (hecho : (env.patchResp d2.id (mkUpdatePayload ext l desc)).body.id = d2.id) :
    ensure_department env w name ext pid l desc =
      ({ cache := replace_by_id w.cache d2.id
            { (env.patchResp d2.id (mkUpdatePayload ext l desc)).body with
              externalId := ext },
          calls := w.calls ++ [Call.patchDept d2.id (mkUpdatePayload ext l desc)] },
       Except.ok d2.id) := by
  have hnot : ¬ 400 ≤ (env.patchResp d2.id (mkUpdatePayload ext l desc)).status := by
    omega
  simp [ensure_department, hext, h1, h2, h3, site_call_eq, hnot, hecho]

theorem C5_witness :
    find_department_by_external_id adoptCache "E" = none ∧
    find_department_by_name adoptCache "X" = some ⟨"7", "", "X", "", ""⟩ ∧
    ensure_department adoptEnv ⟨adoptCache, []⟩ "X" "E" none none none =
      ({ cache := replace_by_id adoptCache "7"
            { (adoptEnv.patchResp "7" (mkUpdatePayload "E" none none)).body with
              externalId := "E" },
          calls := [Call.patchDept "7" (mkUpdatePayload "E" none none)] },
       Except.ok "7") :=
  ⟨by decide, by decide, by
    exact C5_first_name_match_adoption adoptEnv ⟨adoptCache, []⟩ "X" "E" none none
      none ⟨"7", "", "X", "", ""⟩ (by decide) (by decide) (by decide) (by decide)
      (by decide) (by decide)⟩

/-! ### C6: 409 on department creation -/

/-- C6: a department create call answered with HTTP 409 triggers a full cache
refresh and a repeat of the external-id lookup; a hit resolves without error
to that entry's remote_id, while continued absence propagates the 409 (the
spec's Inconsistency error) instead of silently swallowing the conflict.  The
hypotheses put the upsert on its creation path (external-id and name lookups
both miss). -/
theorem C6_conflict_refresh_recheck (env : Env) (w : World) (name ext : String)
    (pid l desc : Option String)
    (hext : ext ≠ "")
    (h1 : find_department_by_external_id w.cache ext = none)
    (h2 : find_department_by_name w.cache name = none)
    (h409 : (env.postDeptResp (mkCreatePayload name ext pid l desc)).status = 409) :
    (∀ d, find_department_by_external_id env.refreshList ext = some d →
      ensure_department env w name ext pid l desc =
        ({ cache := env.refreshList,
           calls := w.calls ++ [Call.postDept (mkCreatePayload name ext pid l desc),
             Call.refresh] },
         Except.ok d.id)) ∧
    (find_department_by_external_id env.refreshList ext = none →
      ensure_department env w name ext pid l desc =
        ({ cache := env.refreshList,
           calls := w.calls ++ [Call.postDept (mkCreatePayload name ext pid l desc),
             Call.refresh] },
         Except.error (Err.http 409))) := by
  constructor
  · intro d hd
    simp [ensure_department, hext, h1, h2, create_department, site_call_eq, h409, hd]
  · intro hd
    simp [ensure_department, hext, h1, h2, create_department, site_call_eq, h409, hd]

theorem C6_witness :
    ensure_department conflictEnvFound ⟨[], []⟩ "En" "E" none none none =
      ({ cache := conflictEnvFound.refreshList,
         calls := [Call.postDept (mkCreatePayload "En" "E" none none none),
           Call.refresh] },
       Except.ok "srv") ∧
    ensure_department conflictEnvMissing ⟨[], []⟩ "En" "E" none none none =
      ({ cache := conflictEnvMissing.refreshList,
         calls := [Call.postDept (mkCreatePayload "En" "E" none none none),
           Call.refresh] },
       Except.error (Err.http 409)) :=
  ⟨(C6_conflict_refresh_recheck conflictEnvFound ⟨[], []⟩ "En" "E" none none none
      (by decide) (by decide) (by decide) (by decide)).1 ⟨"srv", "E", "En", "", ""⟩
      (by decide),
   (C6_conflict_refresh_recheck conflictEnvMissing ⟨[], []⟩ "En" "E" none none none
      (by decide) (by decide) (by decide) (by decide)).2 (by decide)⟩

/-! ### C8: 409 on user creation -/

/-- C8: a user-creation call answered with HTTP 409 yields a result record
with status "exists" (not an error) for that nickname and processing
continues with the remaining users, while a non-transient error status
(≠ 409) propagates and aborts the remaining batch. -/
theorem C8_user_conflict_is_exists (env : Env) (m : List (String × String))
    (u : UserRow) (rest : List UserRow) (results : List UserResult) (w : World)
    (did : String) (hd : alGet m u.dept_external_id = some did) :
    ((env.postUserResp (create_user_body u did)).status = 409 →
      userLoop env m (u :: rest) results w =
        userLoop env m rest
          (results ++ [{ status := "exists", nickname := u.nickname, id := none }])
          { cache := w.cache, calls := w.calls ++ [Call.postUser (create_user_body u did)] }) ∧
    (∀ s, (env.postUserResp (create_user_body u did)).status = s → 400 ≤ s →
      s ≠ 409 → transientStatus s = false →
      userLoop env m (u :: rest) results w =
        ({ cache := w.cache, calls := w.calls ++ [Call.postUser (create_user_body u did)] },
         Except.error (Err.http s))) := by
  have hc : alContains m u.dept_external_id = true := by
    simp [alContains, hd]
  constructor
  · intro h409
    simp [userLoop, hc, create_user, hd, site_call_eq, h409]
  · intro s hs h400 hne htr
    simp [userLoop, hc, create_user, hd, site_call_eq, hs, hne, h400]

theorem C8_witness :
    userLoop userConflictEnv [("A", "ra")] [exUserU] [] ⟨[], []⟩ =
      ({ cache := [],
         calls := [Call.postUser (create_user_body exUserU "ra")] },
       Except.ok [{ status := "exists", nickname := "u.user", id := none }]) := by
  have h := (C8_user_conflict_is_exists userConflictEnv [("A", "ra")] exUserU [] []
    ⟨[], []⟩ "ra" (by decide)).1 (by decide)
  rw [h]
  decide

/-! ### Association-list lemmas -/

theorem alGet_mem {α : Type} {l : List (String × α)} {k : String} {v : α}
    (h : alGet l k = some v) : (k, v) ∈ l := by
  induction l with
  | nil => simp [alGet] at h
  | cons kv t ih =>
    obtain ⟨k', v'⟩ := kv
    by_cases hk : k' = k
    · subst hk
      simp [alGet] at h
      simp [h]
    · simp [alGet, hk] at h
      exact List.mem_cons_of_mem _ (ih h)

theorem alGet_eq_none {α : Type} {l : List (String × α)} {k : String} :
    alGet l k = none ↔ k ∉ l.map Prod.fst := by
  induction l with
  | nil => simp [alGet]
  | cons kv t ih =>
    obtain ⟨k', v'⟩ := kv
    by_cases hk : k' = k
    · subst hk
      simp [alGet]
    · simp [alGet, hk, ih, Ne.symm hk]

theorem alGet_isSome {α : Type} {l : List (String × α)} {k : String} :
    (alGet l k).isSome = true ↔ k ∈ l.map Prod.fst := by
  rcases h : alGet l k with _ | v
  · simpa [h] using (alGet_eq_none).mp h
  · simp only [Option.isSome_some, true_iff]
    exact List.mem_map.mpr ⟨(k, v), alGet_mem h, rfl⟩

theorem alContains_iff {α : Type} {l : List (String × α)} {k : String} :
    alContains l k = true ↔ k ∈ l.map Prod.fst := by
  simpa [alContains] using alGet_isSome

theorem alGet_of_keysNodup {α : Type} {l : List (String × α)} {k : String} {v : α}
    (hnd : (l.map Prod.fst).Nodup) (h : (k, v) ∈ l) : alGet l k = some v := by
  induction l with
  | nil => simp at h
  | cons kv t ih =>
    obtain ⟨k', v'⟩ := kv
    simp only [List.map_cons, List.nodup_cons] at hnd
    rcases List.mem_cons.mp h with h | h
    · cases h
      simp [alGet]
    · have hne : k' ≠ k := by
        rintro rfl
        exact hnd.1 (List.mem_map.mpr ⟨(k', v), h, rfl⟩)
      simp [alGet, hne]
      exact ih hnd.2 h

theorem alGet_alSet_self {α : Type} (l : List (String × α)) (k : String) (v : α) :
    alGet (alSet l k v) k = some v := by
  induction l with
  | nil => simp [alSet, alGet]
  | cons kv t ih =>
    obtain ⟨k', v'⟩ := kv
    by_cases hk : k' = k
    · simp [alSet, hk, alGet]
    · simp [alSet, hk, alGet, ih]

theorem alGet_alSet_ne {α : Type} (l : List (String × α)) (k : String) (v : α)
    (k' : String) (h : k ≠ k') : alGet (alSet l k v) k' = alGet l k' := by
  induction l with
  | nil => simp [alSet, alGet, h]
  | cons kv t ih =>
    obtain ⟨a, b⟩ := kv
    by_cases hk : a = k
    · subst hk
      simp [alSet, alGet, h]
    · simp [alSet, hk, alGet, ih]

theorem alSet_pairs {α : Type} {l : List (String × α)} {k : String} {v : α}
    {kv : String × α} (h : kv ∈ alSet l k v) : kv ∈ l ∨ kv = (k, v) := by
  induction l with
  | nil => simp [alSet] at h; simp [h]
  | cons hd t ih =>
    obtain ⟨a, b⟩ := hd
    by_cases hk : a = k
    · simp only [alSet, hk, if_pos rfl] at h
      rcases List.mem_cons.mp h with h | h
      · right; exact h
      · left; exact List.mem_cons_of_mem _ h
    · simp only [alSet, if_neg hk] at h
      rcases List.mem_cons.mp h with h | h
      · left; simp [h]
      · rcases ih h with h | h
        · left; exact List.mem_cons_of_mem _ h
        · right; exact h

theorem alSet_keys_of_not_mem {α : Type} {l : List (String × α)} {k : String}
    (v : α) (h : k ∉ l.map Prod.fst) :
    (alSet l k v).map Prod.fst = l.map Prod.fst ++ [k] := by
  induction l with
  | nil => simp [alSet]
  | cons hd t ih =>
    obtain ⟨a, b⟩ := hd
    simp only [List.map_cons, List.mem_cons] at h
    push_neg at h
    simp [alSet, Ne.symm h.1, ih h.2]

theorem alSet_keys_mem {α : Type} (l : List (String × α)) (k : String) (v : α)
    (x : String) :
    x ∈ (alSet l k v).map Prod.fst ↔ x ∈ l.map Prod.fst ∨ x = k := by
  induction l with
  | nil => simp [alSet]
  | cons hd t ih =>
    obtain ⟨a, b⟩ := hd
    by_cases hk : a = k
    · subst hk
      rw [show alSet ((a, b) :: t) a v = (a, v) :: t from by simp [alSet]]
      simp only [List.map_cons, List.mem_cons]
      tauto
    · rw [show alSet ((a, b) :: t) k v = (a, b) :: alSet t k v from by simp [alSet, hk]]
      simp only [List.map_cons, List.mem_cons, ih]
      tauto

theorem alGet_alUpd_self (l : List (String × Int)) (k : String) (f : Int → Int)
    (dflt : Int) : alGet (alUpd l k f dflt) k = some (f (alGetD l k dflt)) := by
  induction l with
  | nil => simp [alUpd, alGet, alGetD]
  | cons hd t ih =>
    obtain ⟨a, b⟩ := hd
    by_cases hk : a = k
    · subst hk
      simp [alUpd, alGet, alGetD]
    · simp [alUpd, hk, alGet, alGetD] at ih ⊢
      exact ih

theorem alGet_alUpd_ne (l : List (String × Int)) (k : String) (f : Int → Int)
    (dflt : Int) (k' : String) (h : k ≠ k') :
    alGet (alUpd l k f dflt) k' = alGet l k' := by
  induction l with
  | nil => simp [alUpd, alGet, h]
  | cons hd t ih =>
    obtain ⟨a, b⟩ := hd
    by_cases hk : a = k
    · subst hk
      simp [alUpd, alGet, h]
    · simp [alUpd, hk, alGet, ih]

theorem alGetD_alUpd_self (l : List (String × Int)) (k : String) (f : Int → Int) :
    alGetD (alUpd l k f 0) k 0 = f (alGetD l k 0) := by
  simp [alGetD, alGet_alUpd_self]

theorem alGetD_alUpd_ne (l : List (String × Int)) (k : String) (f : Int → Int)
    (k' : String) (h : k ≠ k') : alGetD (alUpd l k f 0) k' 0 = alGetD l k' 0 := by
  simp [alGetD, alGet_alUpd_ne _ _ _ _ _ h]

theorem alGet_alSetdefault_self (l : List (String × Int)) (k : String) (dflt : Int) :
    alGet (alSetdefault l k dflt) k = some (alGetD l k dflt) := by
  induction l with
  | nil => simp [alSetdefault, alGet, alGetD]
  | cons hd t ih =>
    obtain ⟨a, b⟩ := hd
    by_cases hk : a = k
    · subst hk
      simp [alSetdefault, alGet, alGetD]
    · simp [alSetdefault, hk, alGet, alGetD] at ih ⊢
      exact ih

theorem alGet_alSetdefault_ne (l : List (String × Int)) (k : String) (dflt : Int)
    (k' : String) (h : k ≠ k') : alGet (alSetdefault l k dflt) k' = alGet l k' := by
  induction l with
  | nil => simp [alSetdefault, alGet, h]
  | cons hd t ih =>
    obtain ⟨a, b⟩ := hd
    by_cases hk : a = k
    · subst hk
      simp [alSetdefault, alGet, h]
    · simp [alSetdefault, hk, alGet, ih]

theorem alGet_gAppend_self (g : List (String × List String)) (k : String) (x : String) :
    alGet (gAppend g k x) k = some (alGetD g k [] ++ [x]) := by
  induction g with
  | nil => simp [gAppend, alGet, alGetD]
  | cons hd t ih =>
    obtain ⟨a, b⟩ := hd
    by_cases hk : a = k
    · subst hk
      simp [gAppend, alGet, alGetD]
    · simp [gAppend, hk, alGet, alGetD] at ih ⊢
      exact ih

theorem alGet_gAppend_ne (g : List (String × List String)) (k : String) (x : String)
    (k' : String) (h : k ≠ k') : alGet (gAppend g k x) k' = alGet g k' := by
  induction g with
  | nil => simp [gAppend, alGet, h]
  | cons hd t ih =>
    obtain ⟨a, b⟩ := hd
    by_cases hk : a = k
    · subst hk
      simp [gAppend, alGet, h]
    · simp [gAppend, hk, alGet, ih]

theorem alUpd_keys (l : List (String × Int)) (k : String) (f : Int → Int)
    (dflt : Int) :
    (alUpd l k f dflt).map Prod.fst =
      if k ∈ l.map Prod.fst then l.map Prod.fst else l.map Prod.fst ++ [k] := by
  induction l with
  | nil => simp [alUpd]
  | cons hd t ih =>
    obtain ⟨a, b⟩ := hd
    by_cases hk : a = k
    · subst hk
      simp [alUpd]
    · simp only [alUpd, if_neg hk, List.map_cons, ih, List.mem_cons]
      by_cases hm : k ∈ t.map Prod.fst <;> simp [hm, Ne.symm hk]

theorem alSetdefault_keys (l : List (String × Int)) (k : String) (dflt : Int) :
    (alSetdefault l k dflt).map Prod.fst =
      if k ∈ l.map Prod.fst then l.map Prod.fst else l.map Prod.fst ++ [k] := by
  induction l with
  | nil => simp [alSetdefault]
  | cons hd t ih =>
    obtain ⟨a, b⟩ := hd
    by_cases hk : a = k
    · subst hk
      simp [alSetdefault]
    · simp only [alSetdefault, if_neg hk, List.map_cons, ih, List.mem_cons]
      by_cases hm : k ∈ t.map Prod.fst <;> simp [hm, Ne.symm hk]

theorem keys_nodup_after (keys : List String) (k : String) :
    keys.Nodup →
    (if k ∈ keys then keys else keys ++ [k]).Nodup := by
  intro h
  by_cases hm : k ∈ keys
  · simpa [hm]
  · simp only [if_neg hm]
    simpa [List.nodup_append, hm] using h

/-! ### Counting helpers -/

theorem countP_eq_of_imp {α : Type} {l : List α} {p q : α → Bool}
    (himp : ∀ x ∈ l, p x = true → q x = true)
    (heq : l.countP p = l.countP q) :
    ∀ x ∈ l, q x = true → p x = true := by
  induction l with
  | nil => simp
  | cons a t ih =>
    intro x hx hq
    by_cases hpa : p a = true
    · have hqa : q a = true := himp a (List.mem_cons_self a t) hpa
      rw [List.countP_cons, List.countP_cons, if_pos hpa, if_pos hqa] at heq
      have heq' : t.countP p = t.countP q := by omega
      rcases List.mem_cons.mp hx with rfl | hx
      · exact hpa
      · exact ih (fun y hy => himp y (List.mem_cons_of_mem _ hy)) heq' x hx hq
    · have hle : t.countP p ≤ t.countP q :=
        List.countP_mono_left (fun y hy => himp y (List.mem_cons_of_mem _ hy))
      rw [List.countP_cons, List.countP_cons, if_neg hpa] at heq
      by_cases hqa : q a = true
      · rw [if_pos hqa] at heq
        omega
      · rw [if_neg hqa] at heq
        have heq' : t.countP p = t.countP q := by omega
        rcases List.mem_cons.mp hx with rfl | hx
        · exact absurd hq hqa
        · exact ih (fun y hy => himp y (List.mem_cons_of_mem _ hy)) heq' x hx hq

theorem countP_lt_exists {α : Type} {l : List α} {p q : α → Bool}
    (_himp : ∀ x ∈ l, p x = true → q x = true)
    (hlt : l.countP p < l.countP q) :
    ∃ x ∈ l, q x = true ∧ p x = false := by
  by_contra hcon
  push_neg at hcon
  have : ∀ x ∈ l, q x = true → p x = true := by
    intro x hx hq
    have hne := hcon x hx hq
    simpa using hne
  have : l.countP q ≤ l.countP p := List.countP_mono_left this
  omega

theorem countP_or_split {α : Type} (l : List α) (p q : α → Bool)
    (hdisj : ∀ x ∈ l, ¬(p x = true ∧ q x = true)) :
    l.countP (fun x => p x || q x) = l.countP p + l.countP q := by
  induction l with
  | nil => simp
  | cons a t ih =>
    have ht := ih (fun x hx => hdisj x (List.mem_cons_of_mem _ hx))
    have ha := hdisj a (List.mem_cons_self a t)
    rw [List.countP_cons, List.countP_cons, List.countP_cons, ht]
    rcases Bool.eq_false_or_eq_true (p a) with hp | hp <;>
      rcases Bool.eq_false_or_eq_true (q a) with hq | hq <;>
      simp [hp, hq] at ha ⊢ <;> omega

/-! ### Edge-list structure lemmas -/

theorem childrenOf_cons (pe x : String) (E : List (String × String)) (u : String) :
    childrenOf ((pe, x) :: E) u =
      if pe = u then x :: childrenOf E u else childrenOf E u := by
  by_cases h : pe = u <;> simp [childrenOf, h]

theorem mem_childrenOf {E : List (String × String)} {u v : String} :
    v ∈ childrenOf E u ↔ (u, v) ∈ E := by
  constructor
  · intro h
    obtain ⟨e, he, hev⟩ := List.mem_map.mp h
    obtain ⟨he', hu⟩ := List.mem_filter.mp he
    have : e = (u, v) := by
      obtain ⟨a, b⟩ := e
      simp at hu hev
      simp [hu, hev]
    exact this ▸ he'
  · intro h
    exact List.mem_map.mpr ⟨(u, v), List.mem_filter.mpr ⟨h, by simp⟩, rfl⟩

theorem edgeTgts_cons (pe x : String) (E : List (String × String)) (v : String) :
    edgeTgts ((pe, x) :: E) v = edgeTgts E v + if x = v then 1 else 0 := by
  by_cases h : x = v <;> simp [edgeTgts, List.countP_cons, h]

theorem edgeTgts_eq_zero {E : List (String × String)} {v : String}
    (h : edgeTgts E v = 0) : ∀ e ∈ E, e.2 ≠ v := by
  intro e he
  have := List.countP_eq_zero.mp h e he
  simpa using this

theorem edgeDone_nil_src (E : List (String × String)) (v : String) :
    edgeDone E [] v = 0 := by
  apply List.countP_eq_zero.mpr
  intro e _
  simp

theorem edgeDone_le (E : List (String × String)) (order : List String) (v : String) :
    edgeDone E order v ≤ edgeTgts E v := by
  apply List.countP_mono_left
  intro e _ h
  simp at h
  simp [h.2]

theorem edgeDone_append_one {E : List (String × String)} {order : List String}
    {u : String} (hu : u ∉ order) (v : String) :
    edgeDone E (order ++ [u]) v =
      edgeDone E order v + E.countP (fun e => decide (e.1 = u) && decide (e.2 = v)) := by
  unfold edgeDone
  rw [← countP_or_split]
  · apply List.countP_congr
    intro e _
    constructor
    · intro h
      simp only [List.mem_append, List.mem_singleton, Bool.and_eq_true, decide_eq_true_iff] at h
      rcases h.1 with h1 | h1
      · simp [h1, h.2]
      · simp [h1, h.2]
    · intro h
      simp only [Bool.or_eq_true, Bool.and_eq_true, decide_eq_true_iff] at h
      rcases h with h | h
      · simp [h.1, h.2]
      · simp [h.1, h.2]
  · intro e _
    rintro ⟨h1, h2⟩
    simp only [Bool.and_eq_true, decide_eq_true_iff] at h1 h2
    exact hu (h2.1 ▸ h1.1)

theorem count_childrenOf (E : List (String × String)) (u v : String) :
    (childrenOf E u).count v =
      E.countP (fun e => decide (e.1 = u) && decide (e.2 = v)) := by
  induction E with
  | nil => simp [childrenOf]
  | cons e t ih =>
    obtain ⟨a, b⟩ := e
    rw [childrenOf_cons, List.countP_cons]
    by_cases ha : a = u
    · subst ha
      by_cases hb : b = v <;> simp [hb, List.count_cons, ih]
    · simp [ha, ih]

theorem mem_keys_after {K : List String} {k x : String} :
    x ∈ (if k ∈ K then K else K ++ [k]) ↔ x ∈ K ∨ x = k := by
  by_cases h : k ∈ K
  · simp only [if_pos h]
    constructor
    · exact Or.inl
    · rintro (hx | rfl)
      · exact hx
      · exact h
  · simp [if_neg h]

/-! ### Build-phase lemmas -/

theorem foldGI_graph (bx : List (String × DeptRow)) (rows : List DeptRow) :
    ∀ acc u, alGetD (rows.foldl (buildStep bx) acc).1 u [] =
      alGetD acc.1 u [] ++ childrenOf (edgesAux bx rows) u := by
  induction rows with
  | nil => intro acc u; simp [edgesAux, childrenOf]
  | cons r t ih =>
    intro acc u
    rw [List.foldl_cons, ih]
    rcases hpe : peOf r with _ | pe
    · have : edgesAux bx (r :: t) = edgesAux bx t := by
        simp [edgesAux, hpe]
      rw [this]
      simp [buildStep, hpe]
    · by_cases hc : alContains bx pe
      · have he : edgesAux bx (r :: t) = (pe, r.external_id) :: edgesAux bx t := by
          simp [edgesAux, hpe, hc]
        rw [he, childrenOf_cons]
        have hstep : (buildStep bx acc r).1 = gAppend acc.1 pe r.external_id := by
          simp [buildStep, hpe, hc]
        rw [hstep]
        by_cases hu : pe = u
        · subst hu
          simp [alGetD, alGet_gAppend_self]
        · rw [if_neg hu]
          simp [alGetD, alGet_gAppend_ne _ _ _ _ hu]
      · have he : edgesAux bx (r :: t) = edgesAux bx t := by
          simp [edgesAux, hpe, hc]
        rw [he]
        have hstep : (buildStep bx acc r).1 = acc.1 := by
          simp [buildStep, hpe, hc]
        rw [hstep]

theorem foldGI_indeg (bx : List (String × DeptRow)) (rows : List DeptRow) :
    ∀ acc v, alGetD (rows.foldl (buildStep bx) acc).2 v 0 =
      alGetD acc.2 v 0 + (edgeTgts (edgesAux bx rows) v : Int) := by
  induction rows with
  | nil => intro acc v; simp [edgesAux, edgeTgts]
  | cons r t ih =>
    intro acc v
    rw [List.foldl_cons, ih]
    have setdef : ∀ (m : List (String × Int)),
        alGetD (alSetdefault m r.external_id 0) v 0 = alGetD m v 0 := by
      intro m
      by_cases hv : r.external_id = v
      · subst hv
        simp [alGetD, alGet_alSetdefault_self]
      · simp [alGetD, alGet_alSetdefault_ne _ _ _ _ hv]
    rcases hpe : peOf r with _ | pe
    · have : edgesAux bx (r :: t) = edgesAux bx t := by
        simp [edgesAux, hpe]
      rw [this]
      have hstep : (buildStep bx acc r).2 = alSetdefault acc.2 r.external_id 0 := by
        simp [buildStep, hpe]
      rw [hstep, setdef]
    · by_cases hc : alContains bx pe
      · have he : edgesAux bx (r :: t) = (pe, r.external_id) :: edgesAux bx t := by
          simp [edgesAux, hpe, hc]
        rw [he, edgeTgts_cons]
        have hstep : (buildStep bx acc r).2 =
            alUpd acc.2 r.external_id (fun x => x + 1) 0 := by
          simp [buildStep, hpe, hc]
        rw [hstep]
        by_cases hv : r.external_id = v
        · subst hv
          rw [alGetD_alUpd_self]
          simp
          try omega
        · rw [alGetD_alUpd_ne _ _ _ _ hv, if_neg hv]
          simp
          try omega
      · have he : edgesAux bx (r :: t) = edgesAux bx t := by
          simp [edgesAux, hpe, hc]
        rw [he]
        have hstep : (buildStep bx acc r).2 = alSetdefault acc.2 r.external_id 0 := by
          simp [buildStep, hpe, hc]
        rw [hstep, setdef]

theorem foldGI_keys_mem (bx : List (String × DeptRow)) (rows : List DeptRow) :
    ∀ acc v, v ∈ (rows.foldl (buildStep bx) acc).2.map Prod.fst ↔
      v ∈ acc.2.map Prod.fst ∨ v ∈ rows.map DeptRow.external_id := by
  induction rows with
  | nil => intro acc v; simp
  | cons r t ih =>
    intro acc v
    rw [List.foldl_cons, ih]
    have hkeys : (buildStep bx acc r).2.map Prod.fst =
        if r.external_id ∈ acc.2.map Prod.fst then acc.2.map Prod.fst
        else acc.2.map Prod.fst ++ [r.external_id] := by
      rcases hpe : peOf r with _ | pe
      · simp [buildStep, hpe, alSetdefault_keys]
      · by_cases hc : alContains bx pe
        · simp [buildStep, hpe, hc, alUpd_keys]
        · simp [buildStep, hpe, hc, alSetdefault_keys]
    rw [hkeys]
    rw [show (∀ x, x ∈ (if r.external_id ∈ acc.2.map Prod.fst then acc.2.map Prod.fst
        else acc.2.map Prod.fst ++ [r.external_id]) ↔
        x ∈ acc.2.map Prod.fst ∨ x = r.external_id) from fun x => mem_keys_after]
    simp only [List.map_cons, List.mem_cons]
    tauto

theorem foldGI_keys_nodup (bx : List (String × DeptRow)) (rows : List DeptRow) :
    ∀ acc, (acc.2.map Prod.fst).Nodup →
      ((rows.foldl (buildStep bx) acc).2.map Prod.fst).Nodup := by
  induction rows with
  | nil => intro acc h; simpa using h
  | cons r t ih =>
    intro acc h
    rw [List.foldl_cons]
    apply ih
    have hkeys : (buildStep bx acc r).2.map Prod.fst =
        if r.external_id ∈ acc.2.map Prod.fst then acc.2.map Prod.fst
        else acc.2.map Prod.fst ++ [r.external_id] := by
      rcases hpe : peOf r with _ | pe
      · simp [buildStep, hpe, alSetdefault_keys]
      · by_cases hc : alContains bx pe
        · simp [buildStep, hpe, hc, alUpd_keys]
        · simp [buildStep, hpe, hc, alSetdefault_keys]
    rw [hkeys]
    exact keys_nodup_after _ _ h

theorem by_ext_keys_mem (rows : List DeptRow) (p : String) :
    alContains (by_ext rows) p = true ↔ p ∈ rows.map DeptRow.external_id := by
  rw [alContains_iff]
  unfold by_ext
  have main : ∀ (acc : List (String × DeptRow)),
      p ∈ (rows.foldl (fun m r => alSet m r.external_id r) acc).map Prod.fst ↔
        p ∈ acc.map Prod.fst ∨ p ∈ rows.map DeptRow.external_id := by
    induction rows with
    | nil => intro acc; simp
    | cons r t ih =>
      intro acc
      rw [List.foldl_cons, ih]
      rw [alSet_keys_mem]
      simp only [List.map_cons, List.mem_cons]
      tauto
  rw [main []]
  simp

theorem by_ext_pairs (rows : List DeptRow) :
    ∀ kv ∈ by_ext rows, kv.2 ∈ rows ∧ kv.2.external_id = kv.1 := by
  have main : ∀ (sub : List DeptRow) (acc : List (String × DeptRow)),
      (∀ kv ∈ acc, kv.2 ∈ rows ∧ kv.2.external_id = kv.1) →
      (∀ r ∈ sub, r ∈ rows) →
      ∀ kv ∈ sub.foldl (fun m r => alSet m r.external_id r) acc,
        kv.2 ∈ rows ∧ kv.2.external_id = kv.1 := by
    intro sub
    induction sub with
    | nil =>
      intro acc hacc _ kv hkv
      exact hacc kv hkv
    | cons r t ih =>
      intro acc hacc hsub kv hkv
      rw [List.foldl_cons] at hkv
      refine ih _ ?_ (fun x hx => hsub x (List.mem_cons_of_mem _ hx)) kv hkv
      intro kv' hkv'
      rcases alSet_pairs hkv' with h | h
      · exact hacc kv' h
      · rw [h]
        exact ⟨hsub r (List.mem_cons_self r t), rfl⟩
  exact main rows [] (by simp) (fun r hr => hr)

theorem edgesAux_origin {bx : List (String × DeptRow)} {rows : List DeptRow}
    {e : String × String} (h : e ∈ edgesAux bx rows) :
    ∃ r ∈ rows, peOf r = some e.1 ∧ r.external_id = e.2 ∧ alContains bx e.1 = true := by
  obtain ⟨r, hr, hfr⟩ := List.mem_filterMap.mp h
  refine ⟨r, hr, ?_⟩
  rcases hpe : peOf r with _ | pe
  · simp [hpe] at hfr
  · rw [hpe] at hfr
    by_cases hc : alContains bx pe
    · simp only [hc, if_true] at hfr
      injection hfr with hfr
      subst hfr
      exact ⟨rfl, rfl, hc⟩
    · simp [hc] at hfr

theorem edges_src_mem {rows : List DeptRow} {e : String × String}
    (h : e ∈ edges rows) : e.1 ∈ rows.map DeptRow.external_id := by
  obtain ⟨r, _, _, _, hc⟩ := edgesAux_origin h
  exact (by_ext_keys_mem rows e.1).mp hc

theorem edges_tgt_mem {rows : List DeptRow} {e : String × String}
    (h : e ∈ edges rows) : e.2 ∈ rows.map DeptRow.external_id := by
  obtain ⟨r, hr, _, hext, _⟩ := edgesAux_origin h
  exact hext ▸ List.mem_map.mpr ⟨r, hr, rfl⟩

theorem edgeTgts_le_count (bx : List (String × DeptRow)) (rows : List DeptRow)
    (v : String) :
    edgeTgts (edgesAux bx rows) v ≤ (rows.map DeptRow.external_id).count v := by
  induction rows with
  | nil => simp [edgesAux, edgeTgts]
  | cons r t ih =>
    have hc : (((r :: t).map DeptRow.external_id).count v) =
        (t.map DeptRow.external_id).count v + if r.external_id = v then 1 else 0 := by
      by_cases h : r.external_id = v
      · simp [List.count_cons, h]
      · simp [List.count_cons, h]
    rw [hc]
    rcases hpe : peOf r with _ | pe
    · have : edgesAux bx (r :: t) = edgesAux bx t := by simp [edgesAux, hpe]
      rw [this]
      omega
    · by_cases hcc : alContains bx pe
      · have : edgesAux bx (r :: t) = (pe, r.external_id) :: edgesAux bx t := by
          simp [edgesAux, hpe, hcc]
        rw [this, edgeTgts_cons]
        omega
      · have : edgesAux bx (r :: t) = edgesAux bx t := by simp [edgesAux, hpe, hcc]
        rw [this]
        omega

theorem edgeTgts_le_one {rows : List DeptRow}
    (hnd : (rows.map DeptRow.external_id).Nodup) (v : String) :
    edgeTgts (edges rows) v ≤ 1 := by
  calc edgeTgts (edges rows) v ≤ (rows.map DeptRow.external_id).count v :=
        edgeTgts_le_count _ _ v
    _ ≤ 1 := List.nodup_iff_count_le_one.mp hnd v

theorem by_ext_get_row {rows : List DeptRow} {k : String} {r : DeptRow}
    (h : alGet (by_ext rows) k = some r) : r ∈ rows ∧ r.external_id = k :=
  by_ext_pairs rows (k, r) (alGet_mem h)

theorem by_ext_self {rows : List DeptRow}
    (hnd : (rows.map DeptRow.external_id).Nodup) {r : DeptRow} (hr : r ∈ rows) :
    alGet (by_ext rows) r.external_id = some r := by
  have hmem : r.external_id ∈ rows.map DeptRow.external_id :=
    List.mem_map.mpr ⟨r, hr, rfl⟩
  have hc : alContains (by_ext rows) r.external_id = true :=
    (by_ext_keys_mem rows r.external_id).mpr hmem
  rcases hg : alGet (by_ext rows) r.external_id with _ | r'
  · simp [alContains, hg] at hc
  · obtain ⟨hr', hext⟩ := by_ext_get_row hg
    have : r' = r := List.inj_on_of_nodup_map hnd hr' hr hext
    rw [this]

/-! ### Kahn loop: fold characterisation and termination measure -/

theorem intSum_dec (l : List (String × Int)) (v : String) :
    intSum (alUpd l v (fun t => t - 1) 0) +
      (if 1 ≤ alGetD l v 0 then 1 else 0) = intSum l := by
  induction l with
  | nil =>
    simp [alUpd, intSum, alGetD, alGet]
  | cons hd t ih =>
    obtain ⟨a, b⟩ := hd
    by_cases ha : a = v
    · subst ha
      rw [show alUpd ((a, b) :: t) a (fun t => t - 1) 0 = (a, b - 1) :: t from by
        simp [alUpd]]
      rw [show alGetD ((a, b) :: t) a 0 = b from by simp [alGetD, alGet]]
      simp only [intSum, List.map_cons, List.sum_cons]
      by_cases hb : (1 : Int) ≤ b
      · rw [if_pos hb]
        omega
      · rw [if_neg hb]
        omega
    · rw [show alUpd ((a, b) :: t) v (fun t => t - 1) 0 =
        (a, b) :: alUpd t v (fun t => t - 1) 0 from by simp [alUpd, ha]]
      rw [show alGetD ((a, b) :: t) v 0 = alGetD t v 0 from by simp [alGetD, alGet, ha]]
      simp only [intSum, List.map_cons, List.sum_cons] at ih ⊢
      omega

theorem decStep_measure (q : List String) (ind : List (String × Int)) (v : String) :
    (decStep (q, ind) v).1.length + intSum (decStep (q, ind) v).2 ≤
      q.length + intSum ind := by
  have hsum := intSum_dec ind v
  have hupd := alGetD_alUpd_self ind v (fun t => t - 1)
  unfold decStep
  by_cases hcond : alGetD (alUpd ind v (fun t => t - 1) 0) v 0 = 0
  · rw [if_pos hcond]
    have h1 : alGetD ind v 0 = 1 := by
      rw [hupd] at hcond
      omega
    rw [h1, if_pos (le_refl (1 : Int))] at hsum
    simp only [List.length_append, List.length_singleton]
    omega
  · rw [if_neg hcond]
    simp only
    by_cases hle : 1 ≤ alGetD ind v 0
    · rw [if_pos hle] at hsum
      omega
    · rw [if_neg hle] at hsum
      omega

theorem decFold_measure (cs : List String) :
    ∀ q ind, (cs.foldl decStep (q, ind)).1.length +
      intSum (cs.foldl decStep (q, ind)).2 ≤ q.length + intSum ind := by
  induction cs with
  | nil => intro q ind; simp
  | cons v t ih =>
    intro q ind
    rw [List.foldl_cons]
    calc (t.foldl decStep (decStep (q, ind) v)).1.length +
          intSum (t.foldl decStep (decStep (q, ind) v)).2 ≤
        (decStep (q, ind) v).1.length + intSum (decStep (q, ind) v).2 := by
          have := ih (decStep (q, ind) v).1 (decStep (q, ind) v).2
          simpa using this
      _ ≤ q.length + intSum ind := decStep_measure q ind v

theorem decFold_char (cs : List String) :
    ∀ q ind, cs.Nodup →
      (cs.foldl decStep (q, ind)).1 =
        q ++ cs.filter (fun v => alGetD ind v 0 = 1) ∧
      ∀ w, alGetD (cs.foldl decStep (q, ind)).2 w 0 =
        alGetD ind w 0 - (if w ∈ cs then 1 else 0) := by
  induction cs with
  | nil =>
    intro q ind _
    simp
  | cons v t ih =>
    intro q ind hnd
    rw [List.foldl_cons]
    obtain ⟨hvt, hnd'⟩ := List.nodup_cons.mp hnd
    have hat : alGetD (alUpd ind v (fun x => x - 1) 0) v 0 = alGetD ind v 0 - 1 :=
      alGetD_alUpd_self ind v _
    have hfc :
        t.filter (fun w => alGetD (alUpd ind v (fun x => x - 1) 0) w 0 = 1) =
          t.filter (fun w => alGetD ind w 0 = 1) := by
      apply List.filter_congr
      intro w hw
      have hne : v ≠ w := fun h => hvt (h ▸ hw)
      simp [alGetD_alUpd_ne _ _ _ _ hne]
    have hindpt : ∀ w, alGetD (alUpd ind v (fun x => x - 1) 0) w 0 =
        alGetD ind w 0 - (if w = v then 1 else 0) := by
      intro w
      by_cases hw : w = v
      · subst hw
        simp [hat]
      · rw [alGetD_alUpd_ne _ _ _ _ (Ne.symm hw), if_neg hw]
        ring
    by_cases hcond : alGetD ind v 0 = 1
    · have hc0 : alGetD (alUpd ind v (fun x => x - 1) 0) v 0 = 0 := by
        rw [hat, hcond]
        ring
      have hstep : decStep (q, ind) v = (q ++ [v], alUpd ind v (fun x => x - 1) 0) := by
        unfold decStep
        rw [if_pos hc0]
      rw [hstep]
      obtain ⟨ihq, ihind⟩ := ih (q ++ [v]) (alUpd ind v (fun x => x - 1) 0) hnd'
      constructor
      · rw [ihq, hfc]
        rw [show (v :: t).filter (fun w => alGetD ind w 0 = 1) =
            v :: t.filter (fun w => alGetD ind w 0 = 1) from by
          rw [List.filter_cons]
          simp [hcond]]
        simp
      · intro w
        rw [ihind w, hindpt w]
        by_cases hw : w = v
        · subst hw
          have : w ∉ t := hvt
          simp [this]
        · simp [hw]
    · have hc0 : alGetD (alUpd ind v (fun x => x - 1) 0) v 0 ≠ 0 := by
        rw [hat]
        omega
      have hstep : decStep (q, ind) v = (q, alUpd ind v (fun x => x - 1) 0) := by
        unfold decStep
        rw [if_neg hc0]
      rw [hstep]
      obtain ⟨ihq, ihind⟩ := ih q (alUpd ind v (fun x => x - 1) 0) hnd'
      constructor
      · rw [ihq, hfc]
        rw [show (v :: t).filter (fun w => alGetD ind w 0 = 1) =
            t.filter (fun w => alGetD ind w 0 = 1) from by
          rw [List.filter_cons]
          simp [hcond]]
      · intro w
        rw [ihind w, hindpt w]
        by_cases hw : w = v
        · subst hw
          have : w ∉ t := hvt
          simp [this]
        · simp [hw]

theorem getD_zero_of_done {E : List (String × String)} {order : List String}
    {ind : List (String × Int)} {v : String}
    (hind : alGetD ind v 0 = (edgeTgts E v : Int) - (edgeDone E order v : Int))
    (hall : ∀ e ∈ E, e.2 = v → e.1 ∈ order) : alGetD ind v 0 = 0 := by
  have hd : edgeDone E order v = edgeTgts E v := by
    apply List.countP_congr
    intro e he
    constructor
    · intro h
      simp only [Bool.and_eq_true, decide_eq_true_iff] at h
      simp [h.2]
    · intro h
      simp only [decide_eq_true_iff] at h
      simp [h, hall e he h]
  rw [hind, hd]
  ring

theorem parents_done_of_getD_zero {E : List (String × String)} {order : List String}
    {ind : List (String × Int)} {v : String}
    (hind : alGetD ind v 0 = (edgeTgts E v : Int) - (edgeDone E order v : Int))
    (hzero : alGetD ind v 0 = 0) : ∀ e ∈ E, e.2 = v → e.1 ∈ order := by
  have hle : edgeDone E order v ≤ edgeTgts E v := edgeDone_le E order v
  have heq : edgeDone E order v = edgeTgts E v := by
    rw [hzero] at hind
    omega
  intro e he htgt
  have := countP_eq_of_imp (l := E)
    (p := fun e => decide (e.1 ∈ order) && decide (e.2 = v))
    (q := fun e => decide (e.2 = v))
    (by
      intro x _ hx
      simp only [Bool.and_eq_true, decide_eq_true_iff] at hx
      simp [hx.2])
    (by
      have h1 : edgeDone E order v =
          E.countP (fun e => decide (e.1 ∈ order) && decide (e.2 = v)) := rfl
      have h2 : edgeTgts E v = E.countP (fun e => decide (e.2 = v)) := by
        unfold edgeTgts
        apply List.countP_congr
        intro x _
        simp
      rw [← h1, ← h2, heq])
    e he (by simp [htgt])
  simp only [Bool.and_eq_true, decide_eq_true_iff] at this
  exact this.1

theorem exists_undone_parent {E : List (String × String)} {order : List String}
    {ind : List (String × Int)} {v : String}
    (hind : alGetD ind v 0 = (edgeTgts E v : Int) - (edgeDone E order v : Int))
    (hpos : 0 < alGetD ind v 0) :
    ∃ e ∈ E, e.2 = v ∧ e.1 ∉ order := by
  have hlt : edgeDone E order v < edgeTgts E v := by
    have hle : edgeDone E order v ≤ edgeTgts E v := edgeDone_le E order v
    rw [hind] at hpos
    omega
  obtain ⟨e, he, hq, hp⟩ := countP_lt_exists (l := E)
    (p := fun e => decide (e.1 ∈ order) && decide (e.2 = v))
    (q := fun e => decide (e.2 = v))
    (by
      intro x _ hx
      simp only [Bool.and_eq_true, decide_eq_true_iff] at hx
      simp [hx.2])
    (by
      have h2 : edgeTgts E v = E.countP (fun e => decide (e.2 = v)) := by
        unfold edgeTgts
        apply List.countP_congr
        intro x _
        simp
      have h1 : edgeDone E order v =
          E.countP (fun e => decide (e.1 ∈ order) && decide (e.2 = v)) := rfl
      rw [← h1, ← h2]
      exact hlt)
  simp only [decide_eq_true_iff] at hq
  refine ⟨e, he, hq, ?_⟩
  intro hmem
  simp [hmem, hq] at hp

theorem kfinal_terminal {E : List (String × String)} {nodes : List String}
    {ind : List (String × Int)} {order : List String}
    (hinv : KInv E nodes [] ind order) : KFinal E nodes order order := by
  refine ⟨by simpa using hinv.nodup, hinv.subO, ⟨[], by simp⟩, hinv.ord_done,
    fun v hv => hv, ?_⟩
  intro v hvn hvo
  have hpos : 0 < alGetD ind v 0 := hinv.pending v hvn hvo (by simp)
  exact exists_undone_parent (hinv.ind_eq v) hpos

theorem childrenOf_nodup {E : List (String × String)} {u : String}
    (HED : ∀ v, edgeTgts E v ≤ 1) : (childrenOf E u).Nodup := by
  rw [List.nodup_iff_count_le_one]
  intro v
  rw [count_childrenOf]
  calc E.countP (fun e => decide (e.1 = u) && decide (e.2 = v)) ≤
      E.countP (fun e => decide (e.2 = v)) := by
        apply List.countP_mono_left
        intro e _ he
        simp only [Bool.and_eq_true, decide_eq_true_iff] at he
        simp [he.2]
    _ = edgeTgts E v := by
        unfold edgeTgts
        apply List.countP_congr
        intro x _
        simp
    _ ≤ 1 := HED v

theorem kahnGo_spec (E : List (String × String)) (nodes : List String)
    (g : List (String × List String))
    (HG : ∀ u, alGetD g u [] = childrenOf E u)
    (HED : ∀ v, edgeTgts E v ≤ 1)
    (HtgtN : ∀ e ∈ E, e.2 ∈ nodes) :
    ∀ fuel q ind order, KInv E nodes q ind order →
      q.length + intSum ind ≤ fuel →
      KFinal E nodes order (kahnGo g fuel q ind order) := by
  intro fuel
  induction fuel with
  | zero =>
    intro q ind order hinv hle
    cases q with
    | nil => exact kfinal_terminal hinv
    | cons u qt => simp at hle
  | succ fuel ih =>
    intro q ind order hinv hle
    cases q with
    | nil => exact kfinal_terminal hinv
    | cons u qt =>
      have hcs : alGetD g u [] = childrenOf E u := HG u
      have hcsnd : (childrenOf E u).Nodup := childrenOf_nodup HED
      obtain ⟨hq', hind'⟩ := decFold_char (childrenOf E u) qt ind hcsnd
      have hunfold : kahnGo g (fuel + 1) (u :: qt) ind order =
          kahnGo g fuel ((childrenOf E u).foldl decStep (qt, ind)).1
            ((childrenOf E u).foldl decStep (qt, ind)).2 (order ++ [u]) := by
        rw [show kahnGo g (fuel + 1) (u :: qt) ind order =
            kahnGo g fuel ((alGetD g u []).foldl decStep (qt, ind)).1
              ((alGetD g u []).foldl decStep (qt, ind)).2 (order ++ [u]) from rfl, hcs]
      rw [hunfold, hq']
      have hnodup0 : (order ++ u :: qt).Nodup := hinv.nodup
      obtain ⟨hndO, hndQ, hdisjOQ⟩ := List.nodup_append.mp hnodup0
      have huO : u ∉ order := fun h => hdisjOQ h (List.mem_cons_self u qt)
      obtain ⟨huqt, hndqt⟩ := List.nodup_cons.mp hndQ
      have hzero : ∀ v, (v ∈ order ∨ v ∈ u :: qt) → alGetD ind v 0 = 0 := by
        intro v hv
        apply getD_zero_of_done (hinv.ind_eq v)
        rcases hv with hv | hv
        · obtain ⟨s, t2, hst⟩ := List.append_of_mem hv
          intro e he htgt
          have := hinv.ord_done s v t2 hst e he htgt
          rw [hst]
          exact List.mem_append_left _ this
        · intro e he htgt
          exact hinv.q_done v hv e he htgt
      have hmemNQ : ∀ v, v ∈ (childrenOf E u).filter (fun v => alGetD ind v 0 = 1) ↔
          v ∈ childrenOf E u ∧ alGetD ind v 0 = 1 := by
        intro v
        simp [List.mem_filter]
      have hNQor : ∀ v ∈ (childrenOf E u).filter (fun v => alGetD ind v 0 = 1),
          v ∉ order ∧ v ∉ u :: qt := by
        intro v hv
        obtain ⟨hvcs, hv1⟩ := (hmemNQ v).mp hv
        constructor
        · intro hvo
          have := hzero v (Or.inl hvo)
          omega
        · intro hvq
          have := hzero v (Or.inr hvq)
          omega
      have hNQnd : ((childrenOf E u).filter (fun v => alGetD ind v 0 = 1)).Nodup :=
        hcsnd.filter _
      have hcnt : ∀ v, E.countP (fun e => decide (e.1 = u) && decide (e.2 = v)) =
          if v ∈ childrenOf E u then 1 else 0 := by
        intro v
        rw [← count_childrenOf]
        by_cases hv : v ∈ childrenOf E u
        · rw [if_pos hv]
          exact List.count_eq_one_of_mem hcsnd hv
        · rw [if_neg hv]
          exact List.count_eq_zero_of_not_mem hv
      have hIndEq : ∀ v, alGetD ((childrenOf E u).foldl decStep (qt, ind)).2 v 0 =
          (edgeTgts E v : Int) - (edgeDone E (order ++ [u]) v : Int) := by
        intro v
        rw [hind' v, hinv.ind_eq v, edgeDone_append_one huO v, hcnt v]
        by_cases hv : v ∈ childrenOf E u
        · rw [if_pos hv, if_pos hv]
          push_cast
          ring
        · rw [if_neg hv, if_neg hv]
          push_cast
          ring
      have hinv2 : KInv E nodes
          (qt ++ (childrenOf E u).filter (fun v => alGetD ind v 0 = 1))
          ((childrenOf E u).foldl decStep (qt, ind)).2 (order ++ [u]) := by
        refine ⟨?_, ?_, ?_, hIndEq, ?_, ?_, ?_⟩
        · rw [show (order ++ [u]) ++
              (qt ++ (childrenOf E u).filter (fun v => alGetD ind v 0 = 1)) =
              (order ++ u :: qt) ++
                (childrenOf E u).filter (fun v => alGetD ind v 0 = 1) from by
            simp]
          apply List.nodup_append.mpr
          refine ⟨hnodup0, hNQnd, ?_⟩
          intro x hx hx2
          obtain ⟨h1, h2⟩ := hNQor x hx2
          rcases List.mem_append.mp hx with h | h
          · exact h1 h
          · exact h2 h
        · intro v hv
          rcases List.mem_append.mp hv with h | h
          · exact hinv.subO v h
          · rw [List.mem_singleton.mp h]
            exact hinv.subQ u (List.mem_cons_self u qt)
        · intro v hv
          rcases List.mem_append.mp hv with h | h
          · exact hinv.subQ v (List.mem_cons_of_mem u h)
          · obtain ⟨hvcs, -⟩ := (hmemNQ v).mp h
            exact HtgtN (u, v) (mem_childrenOf.mp hvcs)
        · intro v hv e he htgt
          rcases List.mem_append.mp hv with hvqt | hvnq
          · exact List.mem_append_left _
              (hinv.q_done v (List.mem_cons_of_mem u hvqt) e he htgt)
          · obtain ⟨hvcs, hv1⟩ := (hmemNQ v).mp hvnq
            have hz : alGetD ((childrenOf E u).foldl decStep (qt, ind)).2 v 0 = 0 := by
              rw [hind' v, if_pos hvcs, hv1]
              ring
            exact parents_done_of_getD_zero (hIndEq v) hz e he htgt
        · intro o1 v o2 hdec e he htgt
          rcases List.append_eq_append_iff.mp hdec with ⟨a', ha1, ha2⟩ | ⟨c', hc1, hc2⟩
          · cases a' with
            | nil =>
              rw [List.append_nil] at ha1
              simp only [List.nil_append] at ha2
              injection ha2 with h1 h2
              subst h1
              rw [ha1]
              exact hinv.q_done u (List.mem_cons_self u qt) e he htgt
            | cons x a'' =>
              rw [List.cons_append] at ha2
              injection ha2 with h1 h2
              exact absurd h2.symm (by simp)
          · cases c' with
            | nil =>
              rw [List.append_nil] at hc1
              rw [List.nil_append] at hc2
              injection hc2 with h1 h2
              subst h1
              rw [← hc1]
              exact hinv.q_done v (List.mem_cons_self v qt) e he htgt
            | cons v' c'' =>
              rw [List.cons_append] at hc2
              injection hc2 with h1 h2
              subst h1
              subst h2
              exact hinv.ord_done o1 v c'' hc1 e he htgt
        · intro v hvn hvO hvQ
          have hvo : v ∉ order := fun h => hvO (List.mem_append_left _ h)
          have hvu : v ≠ u := by
            intro h
            exact hvO (List.mem_append_right _ (by simp [h]))
          have hvqt : v ∉ qt := fun h => hvQ (List.mem_append_left _ h)
          have hvnq : v ∉ (childrenOf E u).filter (fun v => alGetD ind v 0 = 1) :=
            fun h => hvQ (List.mem_append_right _ h)
          have hold : 0 < alGetD ind v 0 := by
            apply hinv.pending v hvn hvo
            intro h
            rcases List.mem_cons.mp h with h | h
            · exact hvu h
            · exact hvqt h
          by_cases hvcs : v ∈ childrenOf E u
          · have hub : alGetD ind v 0 ≤ (edgeTgts E v : Int) := by
              rw [hinv.ind_eq v]
              have h0 : (0 : Int) ≤ (edgeDone E order v : Int) := by positivity
              omega
            have htle : edgeTgts E v ≤ 1 := HED v
            have h1 : alGetD ind v 0 = 1 := by omega
            exact absurd ((hmemNQ v).mpr ⟨hvcs, h1⟩) hvnq
          · rw [hind' v, if_neg hvcs]
            omega
      have hmeas : (qt ++ (childrenOf E u).filter (fun v => alGetD ind v 0 = 1)).length +
          intSum ((childrenOf E u).foldl decStep (qt, ind)).2 ≤ fuel := by
        have hfm := decFold_measure (childrenOf E u) qt ind
        rw [hq'] at hfm
        have hlen : (u :: qt).length + intSum ind ≤ fuel + 1 := hle
        simp only [List.length_cons] at hlen
        omega
      have hKF := ih (qt ++ (childrenOf E u).filter (fun v => alGetD ind v 0 = 1))
        ((childrenOf E u).foldl decStep (qt, ind)).2 (order ++ [u]) hinv2 hmeas
      refine ⟨hKF.nodup, hKF.sub, ?_, hKF.done, ?_, hKF.maximal⟩
      · obtain ⟨t, ht⟩ := hKF.ext
        exact ⟨u :: t, by simp [ht]⟩
      · intro v hv
        exact hKF.closed v (List.mem_append_left _ hv)

theorem chain_down (R : String → String → Prop) (f : Nat → String)
    (hf : ∀ n, R (f (n + 1)) (f n)) :
    ∀ d m, 0 < d → ∃ c : List String, List.Chain R (f (m + d)) (c ++ [f m]) := by
  intro d
  induction d with
  | zero =>
    intro m h
    omega
  | succ d ihd =>
    intro m _
    by_cases hd0 : d = 0
    · subst hd0
      exact ⟨[], by simpa using hf m⟩
    · obtain ⟨c, hc⟩ := ihd m (by omega)
      refine ⟨f (m + d) :: c, ?_⟩
      rw [List.cons_append]
      exact List.Chain.cons (hf (m + d)) hc

theorem nodes_subset_of_acyclic {E : List (String × String)} {nodes fin : List String}
    (hsrc : ∀ e ∈ E, e.1 ∈ nodes)
    (hmax : ∀ v ∈ nodes, v ∉ fin → ∃ e ∈ E, e.2 = v ∧ e.1 ∉ fin)
    (hacyc : ¬ ∃ v c, IsCycle E v c) :
    ∀ v ∈ nodes, v ∈ fin := by
  classical
  by_contra hcon
  push_neg at hcon
  obtain ⟨v0, hv0n, hv0f⟩ := hcon
  apply hacyc
  set B : List String := nodes.filter (fun v => v ∉ fin) with hB
  have hmemB : ∀ x, x ∈ B ↔ x ∈ nodes ∧ x ∉ fin := by
    intro x
    simp [hB, List.mem_filter]
  have hb0 : v0 ∈ B := (hmemB v0).mpr ⟨hv0n, hv0f⟩
  have hpred : ∀ v ∈ B, ∃ u ∈ B, (u, v) ∈ E := by
    intro v hv
    obtain ⟨hvn, hvf⟩ := (hmemB v).mp hv
    obtain ⟨e, he, htgt, hsf⟩ := hmax v hvn hvf
    refine ⟨e.1, (hmemB e.1).mpr ⟨hsrc e he, hsf⟩, ?_⟩
    have : e = (e.1, v) := by
      obtain ⟨a, b⟩ := e
      simp at htgt
      simp [htgt]
    rw [← this]
    exact he
  let pred : {x // x ∈ B} → {x // x ∈ B} := fun x =>
    ⟨(hpred x.1 x.2).choose, ((hpred x.1 x.2).choose_spec).1⟩
  let seq : Nat → {x // x ∈ B} := fun n => pred^[n] ⟨v0, hb0⟩
  have hedge : ∀ n, ((seq (n + 1)).1, (seq n).1) ∈ E := by
    intro n
    have hit : seq (n + 1) = pred (seq n) := Function.iterate_succ_apply' pred n _
    rw [hit]
    exact ((hpred (seq n).1 (seq n).2).choose_spec).2
  have hmaps : ∀ n ∈ Finset.range (B.length + 1), (seq n).1 ∈ B.toFinset := by
    intro n _
    exact List.mem_toFinset.mpr (seq n).2
  have hcard : B.toFinset.card < (Finset.range (B.length + 1)).card := by
    rw [Finset.card_range]
    have := B.toFinset_card_le
    omega
  obtain ⟨i, hi, j, hj, hne, heq⟩ :=
    Finset.exists_ne_map_eq_of_card_lt_of_maps_to hcard hmaps
  rcases Nat.lt_or_ge i j with hij | hij
  · obtain ⟨c, hc⟩ := chain_down (fun a b => (a, b) ∈ E) (fun n => (seq n).1)
      hedge (j - i) i (by omega)
    rw [show i + (j - i) = j from by omega] at hc
    rw [heq] at hc
    exact ⟨(seq j).1, c, hc⟩
  · have hij' : j < i := by omega
    obtain ⟨c, hc⟩ := chain_down (fun a b => (a, b) ∈ E) (fun n => (seq n).1)
      hedge (i - j) j (by omega)
    rw [show j + (i - j) = i from by omega] at hc
    rw [← heq] at hc
    exact ⟨(seq i).1, c, hc⟩

theorem topoOrder_spec (rows : List DeptRow)
    (hnd : (rows.map DeptRow.external_id).Nodup) :
    KFinal (edges rows) (rows.map DeptRow.external_id) [] (topoOrder rows) := by
  have hbase : buildGI rows = rows.foldl (buildStep (by_ext rows)) ([], []) := rfl
  have HG : ∀ u, alGetD (buildGI rows).1 u [] = childrenOf (edges rows) u := by
    intro u
    rw [hbase, foldGI_graph (by_ext rows) rows ([], []) u]
    rfl
  have HED : ∀ v, edgeTgts (edges rows) v ≤ 1 := edgeTgts_le_one hnd
  have HtgtN : ∀ e ∈ edges rows, e.2 ∈ rows.map DeptRow.external_id :=
    fun e he => edges_tgt_mem he
  have hind0 : ∀ v, alGetD (buildGI rows).2 v 0 = (edgeTgts (edges rows) v : Int) := by
    intro v
    rw [hbase, foldGI_indeg (by_ext rows) rows ([], []) v]
    simp [alGetD, alGet, edges]
  have hkeysnd : ((buildGI rows).2.map Prod.fst).Nodup := by
    rw [hbase]
    exact foldGI_keys_nodup (by_ext rows) rows ([], []) (by simp)
  have hkeysmem : ∀ v, v ∈ (buildGI rows).2.map Prod.fst ↔
      v ∈ rows.map DeptRow.external_id := by
    intro v
    rw [hbase, foldGI_keys_mem (by_ext rows) rows ([], []) v]
    simp
  have hq0mem : ∀ v, v ∈ ((buildGI rows).2.filter (fun kv => kv.2 = 0)).map Prod.fst ↔
      alGet (buildGI rows).2 v = some 0 := by
    intro v
    constructor
    · intro h
      obtain ⟨kv, hkv, hfst⟩ := List.mem_map.mp h
      obtain ⟨hkv2, hz⟩ := List.mem_filter.mp hkv
      obtain ⟨a, b⟩ := kv
      simp only [decide_eq_true_iff] at hz
      cases hfst
      cases hz
      exact alGet_of_keysNodup hkeysnd hkv2
    · intro h
      exact List.mem_map.mpr ⟨(v, 0), List.mem_filter.mpr ⟨alGet_mem h, by simp⟩, rfl⟩
  have hq0nd : (((buildGI rows).2.filter (fun kv => kv.2 = 0)).map Prod.fst).Nodup := by
    have hsub : List.Sublist
        (((buildGI rows).2.filter (fun kv => kv.2 = 0)).map Prod.fst)
        ((buildGI rows).2.map Prod.fst) :=
      ((buildGI rows).2.filter_sublist).map Prod.fst
    exact hkeysnd.sublist hsub
  have hinv : KInv (edges rows) (rows.map DeptRow.external_id)
      (((buildGI rows).2.filter (fun kv => kv.2 = 0)).map Prod.fst)
      (buildGI rows).2 [] := by
    refine ⟨by simpa using hq0nd, by simp, ?_, ?_, ?_, ?_, ?_⟩
    · intro v hv
      have := (hq0mem v).mp hv
      have hin : v ∈ (buildGI rows).2.map Prod.fst := by
        rw [← alGet_isSome]
        simp [this]
      exact (hkeysmem v).mp hin
    · intro v
      rw [edgeDone_nil_src, hind0 v]
      simp
    · intro v hv e he htgt
      have hg := (hq0mem v).mp hv
      have h0 : alGetD (buildGI rows).2 v 0 = 0 := by
        simp [alGetD, hg]
      rw [hind0 v] at h0
      have : edgeTgts (edges rows) v = 0 := by exact_mod_cast h0
      exact absurd htgt (edgeTgts_eq_zero this e he)
    · intro o1 v o2 hdec
      exact absurd hdec.symm (by simp)
    · intro v hvn _ hvq
      have hin : v ∈ (buildGI rows).2.map Prod.fst := (hkeysmem v).mpr hvn
      rcases hg : alGet (buildGI rows).2 v with _ | x
      · rw [alGet_eq_none] at hg
        exact absurd hin hg
      · have hx0 : x ≠ 0 := by
          intro h
          exact hvq ((hq0mem v).mpr (h ▸ hg))
        have hgd : alGetD (buildGI rows).2 v 0 = x := by
          simp [alGetD, hg]
        have hge : (0 : Int) ≤ x := by
          rw [← hgd, hind0 v]
          positivity
        rw [hgd]
        omega
  have := kahnGo_spec (edges rows) (rows.map DeptRow.external_id) (buildGI rows).1
    HG HED HtgtN
    ((((buildGI rows).2.filter (fun kv => kv.2 = 0)).map Prod.fst).length +
      intSum (buildGI rows).2)
    (((buildGI rows).2.filter (fun kv => kv.2 = 0)).map Prod.fst)
    (buildGI rows).2 [] hinv (le_refl _)
  exact this

theorem topo_complete (rows : List DeptRow)
    (hnd : (rows.map DeptRow.external_id).Nodup)
    (hacyc : ¬ ∃ v c, IsCycle (edges rows) v c) :
    (topoOrder rows).Perm (rows.map DeptRow.external_id) := by
  have hKF := topoOrder_spec rows hnd
  have hcomp : ∀ v ∈ rows.map DeptRow.external_id, v ∈ topoOrder rows :=
    nodes_subset_of_acyclic (fun e he => edges_src_mem he) hKF.maximal hacyc
  have h1 : (topoOrder rows).Subperm (rows.map DeptRow.external_id) :=
    List.subperm_of_subset hKF.nodup hKF.sub
  have h2 : (rows.map DeptRow.external_id).Subperm (topoOrder rows) :=
    List.subperm_of_subset hnd hcomp
  exact h1.antisymm h2

theorem no_cycle_of_rank (E : List (String × String)) (rank : String → Nat)
    (hE : ∀ e ∈ E, rank e.1 < rank e.2) : ¬ ∃ v c, IsCycle E v c := by
  have chain_rank : ∀ (c : List String) (v w : String),
      List.Chain (fun x y => (x, y) ∈ E) v (c ++ [w]) → rank v < rank w := by
    intro c
    induction c with
    | nil =>
      intro v w h
      rcases List.chain_cons.mp h with ⟨hvw, -⟩
      exact hE (v, w) hvw
    | cons x c ih =>
      intro v w h
      rcases List.chain_cons.mp h with ⟨hvx, hx⟩
      exact Nat.lt_trans (hE (v, x) hvx) (ih x w hx)
  rintro ⟨v, c, hc⟩
  exact Nat.lt_irrefl _ (chain_rank c v v hc)

theorem chain_last_target {E : List (String × String)} :
    ∀ (l : List String) (a w : String),
      List.Chain (fun x y => (x, y) ∈ E) a (l ++ [w]) → ∃ e ∈ E, e.2 = w := by
  intro l
  induction l with
  | nil =>
    intro a w h
    rcases List.chain_cons.mp h with ⟨haw, -⟩
    exact ⟨(a, w), haw, rfl⟩
  | cons b t ih =>
    intro a w h
    rcases List.chain_cons.mp h with ⟨-, hb⟩
    exact ih b w hb

theorem cycle_avoids_done {E : List (String × String)} {fin : List String}
    (hdone : ∀ o1 v o2, fin = o1 ++ v :: o2 → ∀ e ∈ E, e.2 = v → e.1 ∈ o1)
    {v : String} {c : List String} (hcyc : IsCycle E v c) :
    ∀ x ∈ v :: c, x ∉ fin := by
  have hchainpred : ∀ (l : List String) (a : String),
      List.Chain (fun x y => (x, y) ∈ E) a l →
      ∀ x ∈ l, ∃ y ∈ a :: l, (y, x) ∈ E := by
    intro l
    induction l with
    | nil =>
      intro a _ x hx
      simp at hx
    | cons b t ih =>
      intro a h x hx
      rcases List.chain_cons.mp h with ⟨hab, hbt⟩
      rcases List.mem_cons.mp hx with rfl | hx
      · exact ⟨a, List.mem_cons_self a _, hab⟩
      · obtain ⟨y, hy, hyx⟩ := ih b hbt x hx
        exact ⟨y, List.mem_cons_of_mem a hy, hyx⟩
  have hpred : ∀ x ∈ v :: c, ∃ y ∈ v :: c, (y, x) ∈ E := by
    intro x hx
    have hx' : x ∈ c ++ [v] := by
      rcases List.mem_cons.mp hx with rfl | hx
      · simp
      · exact List.mem_append_left _ hx
    obtain ⟨y, hy, hyx⟩ := hchainpred (c ++ [v]) v hcyc x hx'
    refine ⟨y, ?_, hyx⟩
    rcases List.mem_cons.mp hy with rfl | hy
    · exact List.mem_cons_self _ _
    · rcases List.mem_append.mp hy with hy | hy
      · exact List.mem_cons_of_mem _ hy
      · rw [List.mem_singleton.mp hy]
        exact List.mem_cons_self _ _
  have main : ∀ n, ∀ x ∈ v :: c, ∀ o1 o2, fin = o1 ++ x :: o2 →
      o1.length = n → False := by
    intro n
    induction n using Nat.strong_induction_on with
    | _ n ihn =>
      intro x hx o1 o2 hdec hlen
      obtain ⟨y, hy, hyx⟩ := hpred x hx
      have hyo1 : y ∈ o1 := hdone o1 x o2 hdec (y, x) hyx rfl
      obtain ⟨s, t, hst⟩ := List.append_of_mem hyo1
      have hdec2 : fin = s ++ y :: (t ++ x :: o2) := by
        rw [hdec, hst]
        simp
      have hslen : s.length < n := by
        rw [← hlen, hst]
        simp only [List.length_append, List.length_cons]
        omega
      exact ihn s.length hslen y hy s (t ++ x :: o2) hdec2 rfl
  intro x hx hxf
  obtain ⟨o1, o2, hdec⟩ := List.append_of_mem hxf
  exact main o1.length x hx o1 o2 hdec rfl

/-! ### C1: the hierarchy resolution engine on acyclic input -/

/-- C1: for every acyclic input set of department records with unique
external_ids, the resolution engine's order contains every record exactly
once (it is a permutation of the input external_ids) and every record whose
parent_external_id refers to another record in the input set appears after
that parent record. -/
theorem C1_topological_order (rows : List DeptRow)
    (hnd : (rows.map DeptRow.external_id).Nodup)
    (hacyc : ¬ ∃ v c, IsCycle (edges rows) v c) :
    (topoOrder rows).Perm (rows.map DeptRow.external_id) ∧
    ∀ r ∈ rows, ∀ p, peOf r = some p → p ∈ rows.map DeptRow.external_id →
      ∃ l1 l2, topoOrder rows = l1 ++ p :: l2 ∧ r.external_id ∈ l2 := by
  have hKF := topoOrder_spec rows hnd
  have hperm := topo_complete rows hnd hacyc
  refine ⟨hperm, ?_⟩
  intro r hr p hpe hpm
  have hc : alContains (by_ext rows) p = true := (by_ext_keys_mem rows p).mpr hpm
  have hedge : (p, r.external_id) ∈ edges rows := by
    apply List.mem_filterMap.mpr
    exact ⟨r, hr, by simp [hpe, hc]⟩
  have hmem : r.external_id ∈ topoOrder rows :=
    hperm.mem_iff.mpr (List.mem_map.mpr ⟨r, hr, rfl⟩)
  obtain ⟨l1, l2, hdec⟩ := List.append_of_mem hmem
  have hp1 : p ∈ l1 := hKF.done l1 r.external_id l2 hdec (p, r.external_id) hedge rfl
  obtain ⟨s, t, hst⟩ := List.append_of_mem hp1
  refine ⟨s, t ++ r.external_id :: l2, ?_, by simp⟩
  rw [hdec, hst]
  simp

theorem C1_witness :
    (topoOrder exRows).Perm (exRows.map DeptRow.external_id) ∧
    (∃ l1 l2, topoOrder exRows = l1 ++ "B" :: l2 ∧ "C" ∈ l2) := by
  have h := C1_topological_order exRows (by decide)
    (no_cycle_of_rank (edges exRows)
      (fun s => if s = "A" then 0 else if s = "B" then 1 else 2) (by decide))
  exact ⟨h.1, h.2 exC (by decide) "B" (by decide) (by decide)⟩

/-! ### C2: cyclic input fails with no remote calls -/

/-- C2: for every input set of department records (with the input
collaborator's unique-external_id guarantee) containing a cycle among records
that reference each other via parent_external_id, `build_hierarchy_and_create`
raises the cycle error and returns the world unchanged: zero department
create or update calls are issued and the cache is untouched (no partial
processing). -/
theorem C2_cycle_detected (rows : List DeptRow) (env : Env) (w : World)
    (hnd : (rows.map DeptRow.external_id).Nodup)
    (hcyc : ∃ v c, IsCycle (edges rows) v c) :
    build_hierarchy_and_create env w rows = (w, Except.error Err.cycleDetected) := by
  obtain ⟨v, c, hc⟩ := hcyc
  have hKF := topoOrder_spec rows hnd
  have havoid := cycle_avoids_done hKF.done hc
  have hvtgt : ∃ e ∈ edges rows, e.2 = v := chain_last_target c v v hc
  have hvmem : v ∈ rows.map DeptRow.external_id := by
    obtain ⟨e, he, htgt⟩ := hvtgt
    exact htgt ▸ edges_tgt_mem he
  have hvnot : v ∉ topoOrder rows := havoid v (List.mem_cons_self v c)
  have hsub : (topoOrder rows).Subperm (rows.map DeptRow.external_id) :=
    List.subperm_of_subset hKF.nodup hKF.sub
  have hlt : (topoOrder rows).length < rows.length := by
    have hle := hsub.length_le
    rw [List.length_map] at hle
    rcases Nat.lt_or_ge (topoOrder rows).length rows.length with h | h
    · exact h
    · exfalso
      have heq : (topoOrder rows).length = (rows.map DeptRow.external_id).length := by
        rw [List.length_map]
        omega
      have hperm := hsub.perm_of_length_le (by omega)
      exact hvnot (hperm.mem_iff.mpr hvmem)
  have hne : (topoOrder rows).length ≠ rows.length := by omega
  simp [build_hierarchy_and_create, hne]

theorem C2_witness :
    build_hierarchy_and_create okEnv ⟨[], []⟩ cycRows =
      (⟨[], []⟩, Except.error Err.cycleDetected) := by
  apply C2_cycle_detected cycRows okEnv ⟨[], []⟩ (by decide)
  refine ⟨"X", ["Y"], ?_⟩
  exact List.Chain.cons (by decide) (List.Chain.cons (by decide) List.Chain.nil)

/-! ### C4: idempotent step-1 hits -/

theorem validate_nodup {rows : List DeptRow}
    (hv : validate_departments_csv rows = true) :
    (rows.map DeptRow.external_id).Nodup ∧ ∀ r ∈ rows, r.external_id ≠ "" := by
  unfold validate_departments_csv at hv
  rw [Bool.and_eq_true] at hv
  obtain ⟨h1, h2⟩ := hv
  rw [List.all_eq_true] at h1 h2
  constructor
  · rw [List.nodup_iff_count_le_one]
    intro a
    by_cases ha : a ∈ rows.map DeptRow.external_id
    · have := h2 a ha
      simpa using this
    · rw [List.count_eq_zero_of_not_mem ha]
      omega
  · intro r hr
    have := h1 r hr
    rw [Bool.and_eq_true] at this
    simpa using this.1

theorem ensure_step1_hit (env : Env) (w : World) (name ext : String)
    (pid l desc : Option String) (d : RemoteDept) (hext : ext ≠ "")
    (hfind : find_department_by_external_id w.cache ext = some d) :
    ensure_department env w name ext pid l desc = (w, Except.ok d.id) := by
  simp [ensure_department, hext, hfind]

theorem createLoop_cons (env : Env) (bx : List (String × DeptRow)) (ext : String)
    (rest : List String) (m : List (String × String)) (w : World) :
    createLoop env bx (ext :: rest) m w =
      match alGet bx ext with
      | none => (w, Except.error (Err.keyError ext))
      | some r =>
        let parent_id : Option String :=
          match peOf r with
          | none => none
          | some p => alGet m p
        let bad : Bool :=
          match peOf r with
          | some p => parent_id.isNone && alContains bx p
          | none => false
        if bad then (w, Except.error (Err.parentNotCreated r.parent_external_id))
        else
          let res := ensure_department env w r.name r.external_id parent_id
            (optOf r.label) (optOf r.description)
          match res.2 with
          | Except.error e => (res.1, Except.error e)
          | Except.ok did => createLoop env bx rest (alSet m ext did) res.1 := rfl

theorem createLoop_hits (env : Env) (rows : List DeptRow) (order : List String)
    (hdone : ∀ o1 v o2, order = o1 ++ v :: o2 →
      ∀ e ∈ edges rows, e.2 = v → e.1 ∈ o1) :
    ∀ l pre m w, order = pre ++ l →
      (∀ p ∈ pre, alContains m p = true) →
      (∀ ext ∈ l, ∃ r, alGet (by_ext rows) ext = some r ∧ r.external_id = ext ∧
        r.external_id ≠ "" ∧
        ∃ d, find_department_by_external_id w.cache ext = some d) →
      ∃ m', createLoop env (by_ext rows) l m w = (w, Except.ok m') := by
  intro l
  induction l with
  | nil =>
    intro pre m w _ _ _
    exact ⟨m, rfl⟩
  | cons ext rest ih =>
    intro pre m w hsplit hpre hhits
    obtain ⟨r, hget, hrext, hrne, d, hfind⟩ := hhits ext (List.mem_cons_self ext rest)
    obtain ⟨hrmem, -⟩ := by_ext_get_row hget
    have hbad : (match peOf r with
        | some p => (match peOf r with
            | none => (none : Option String)
            | some p => alGet m p).isNone && alContains (by_ext rows) p
        | none => false) = false := by
      rcases hpe : peOf r with _ | p
      · simp
      · simp only [hpe]
        by_cases hc : alContains (by_ext rows) p
        · have hedge : (p, ext) ∈ edges rows := by
            apply List.mem_filterMap.mpr
            exact ⟨r, hrmem, by simp [hpe, hc, hrext]⟩
          have hpd : p ∈ pre := hdone pre ext rest hsplit (p, ext) hedge rfl
          have := hpre p hpd
          rw [alContains] at this
          rcases hg : alGet m p with _ | x
          · rw [hg] at this
            simp at this
          · simp [hg]
        · simp [hc]
    have hens : ensure_department env w r.name r.external_id
        (match peOf r with
         | none => none
         | some p => alGet m p) (optOf r.label) (optOf r.description) =
        (w, Except.ok d.id) :=
      ensure_step1_hit env w r.name r.external_id _ _ _ d hrne (hrext ▸ hfind)
    have hstep : createLoop env (by_ext rows) (ext :: rest) m w =
        createLoop env (by_ext rows) rest (alSet m ext d.id) w := by
      rw [createLoop_cons, hget]
      simp only []
      rw [if_neg (by rw [hbad]; simp)]
      rw [hens]
    rw [hstep]
    apply ih (pre ++ [ext]) (alSet m ext d.id) w
    · rw [hsplit]
      simp
    · intro p hp
      rw [alContains, alGet_isSome, alSet_keys_mem]
      rcases List.mem_append.mp hp with hp | hp
      · left
        have := hpre p hp
        rw [alContains, alGet_isSome] at this
        exact this
      · right
        exact List.mem_singleton.mp hp
    · intro x hx
      exact hhits x (List.mem_cons_of_mem ext hx)

/-- C4: a department whose non-empty external_id is already in the cache is
resolved by the step-1 lookup: its cache entry's remote_id is returned with no
remote call and no cache change.  Consequently, re-running the department step
against a cache already containing every input department leaves the world
untouched (no mutation, no duplicates): the step returns successfully with
`w` unchanged. -/
theorem C4_idempotent_hits (rows : List DeptRow) (env : Env) (w : World)
    (hv : validate_departments_csv rows = true)
    (hacyc : ¬ ∃ v c, IsCycle (edges rows) v c)
    (hcache : ∀ r ∈ rows, ∃ d,
      find_department_by_external_id w.cache r.external_id = some d) :
    (∀ name ext pid l desc d, ext ≠ "" →
      find_department_by_external_id w.cache ext = some d →
      ensure_department env w name ext pid l desc = (w, Except.ok d.id)) ∧
    ∃ m, build_hierarchy_and_create env w rows = (w, Except.ok m) := by
  obtain ⟨hnd, hne⟩ := validate_nodup hv
  constructor
  · intro name ext pid l desc d hext hfind
    exact ensure_step1_hit env w name ext pid l desc d hext hfind
  · have hKF := topoOrder_spec rows hnd
    have hperm := topo_complete rows hnd hacyc
    have hlen : (topoOrder rows).length = rows.length := by
      rw [hperm.length_eq, List.length_map]
    have hhits : ∀ ext ∈ topoOrder rows, ∃ r, alGet (by_ext rows) ext = some r ∧
        r.external_id = ext ∧ r.external_id ≠ "" ∧
        ∃ d, find_department_by_external_id w.cache ext = some d := by
      intro ext hext
      have hmem : ext ∈ rows.map DeptRow.external_id := hperm.mem_iff.mp hext
      have hc : alContains (by_ext rows) ext = true := (by_ext_keys_mem rows ext).mpr hmem
      rw [alContains, alGet_isSome] at hc
      rcases hg : alGet (by_ext rows) ext with _ | r
      · rw [alGet_eq_none] at hg
        exact absurd hc hg
      · obtain ⟨hrmem, hrx⟩ := by_ext_get_row hg
        obtain ⟨d, hd⟩ := hcache r hrmem
        exact ⟨r, rfl, hrx, hne r hrmem, d, hrx ▸ hd⟩
    obtain ⟨m, hm⟩ := createLoop_hits env rows (topoOrder rows) hKF.done
      (topoOrder rows) [] [] w (by simp) (by simp) hhits
    refine ⟨m, ?_⟩
    rw [show build_hierarchy_and_create env w rows =
        (if (topoOrder rows).length ≠ rows.length
         then (w, Except.error Err.cycleDetected)
         else createLoop env (by_ext rows) (topoOrder rows) [] w) from rfl]
    rw [if_neg (by omega)]
    exact hm

theorem C4_witness :
    ensure_department okEnv ⟨exCache, []⟩ "Alpha" "A" none none none =
      (⟨exCache, []⟩, Except.ok "ra") ∧
    ∃ m, build_hierarchy_and_create okEnv ⟨exCache, []⟩ exRows =
      (⟨exCache, []⟩, Except.ok m) := by
  have h := C4_idempotent_hits exRows okEnv ⟨exCache, []⟩ (by decide)
    (no_cycle_of_rank (edges exRows)
      (fun s => if s = "A" then 0 else if s = "B" then 1 else 2) (by decide))
    (by
      intro r hr
      fin_cases hr
      · exact ⟨⟨"rc", "C", "Gamma", "", ""⟩, rfl⟩
      · exact ⟨⟨"rb", "B", "Beta", "", ""⟩, rfl⟩
      · exact ⟨⟨"ra", "A", "Alpha", "", ""⟩, rfl⟩)
  exact ⟨h.1 "Alpha" "A" none none none ⟨"ra", "A", "Alpha", "", ""⟩ (by decide)
    (by decide), h.2⟩

/-! ### C7: out-of-set parents -/

/-- C7: a department record whose parent_external_id is non-empty but refers
to an external id absent from the input set gets in-degree 0 in the
resolution graph; when it is upserted, the creation loop passes parent_id =
None to `ensure_department` (the parent is not resolved through the ordering's
ExternalIdToRemoteId mapping, and the RuntimeError safety check does not
fire), and if the department already exists in the cache its entry is
returned by the cache lookup as-is. -/
theorem C7_out_of_set_parent (rows : List DeptRow) (r : DeptRow) (p : String)
    (hnd : (rows.map DeptRow.external_id).Nodup) (hr : r ∈ rows)
    (hpe : peOf r = some p) (hpm : p ∉ rows.map DeptRow.external_id) :
    alGetD (buildGI rows).2 r.external_id 0 = 0 ∧
    (∀ env w m rest, (∀ kv ∈ m, kv.1 ∈ rows.map DeptRow.external_id) →
      createLoop env (by_ext rows) (r.external_id :: rest) m w =
        (let res := ensure_department env w r.name r.external_id none
            (optOf r.label) (optOf r.description)
         match res.2 with
         | Except.error e => (res.1, Except.error e)
         | Except.ok did => createLoop env (by_ext rows) rest
             (alSet m r.external_id did) res.1)) ∧
    (∀ env w d, r.external_id ≠ "" →
      find_department_by_external_id w.cache r.external_id = some d →
      ensure_department env w r.name r.external_id none (optOf r.label)
        (optOf r.description) = (w, Except.ok d.id)) := by
  have hcont : alContains (by_ext rows) p = false := by
    rcases h : alContains (by_ext rows) p
    · rfl
    · exact absurd ((by_ext_keys_mem rows p).mp h) hpm
  refine ⟨?_, ?_, ?_⟩
  · rw [show (buildGI rows).2 = (rows.foldl (buildStep (by_ext rows)) ([], [])).2
      from rfl]
    rw [foldGI_indeg (by_ext rows) rows ([], []) r.external_id]
    have htz : edgeTgts (edgesAux (by_ext rows) rows) r.external_id = 0 := by
      apply List.countP_eq_zero.mpr
      intro e he hdec
      simp only [decide_eq_true_iff] at hdec
      obtain ⟨r', hr', hpe', hext', hc'⟩ := edgesAux_origin he
      have hrr : r' = r := List.inj_on_of_nodup_map hnd hr' hr (by rw [hext', hdec])
      subst hrr
      rw [hpe] at hpe'
      injection hpe' with hpp
      rw [hpp] at hcont
      simp [hc'] at hcont
    rw [htz]
    simp [alGetD, alGet]
  · intro env w m rest hm
    have hget : alGet (by_ext rows) r.external_id = some r := by_ext_self hnd hr
    have hgm : alGet m p = none := by
      rcases h : alGet m p with _ | x
      · rfl
      · exact absurd (hm (p, x) (alGet_mem h)) hpm
    rw [createLoop_cons, hget]
    simp only [hpe, hgm, Option.isNone_none, Bool.true_and, hcont]
    rw [if_neg (by simp)]
  · intro env w d hrne hfind
    exact ensure_step1_hit env w r.name r.external_id none (optOf r.label)
      (optOf r.description) d hrne hfind

theorem C7_witness :
    alGetD (buildGI [DeptRow.mk "E" "En" "NOPE" "" ""]).2 "E" 0 = 0 ∧
    ensure_department okEnv ⟨[⟨"d1", "E", "En", "", ""⟩], []⟩ "En" "E" none none
      none = (⟨[⟨"d1", "E", "En", "", ""⟩], []⟩, Except.ok "d1") := by
  have h := C7_out_of_set_parent [DeptRow.mk "E" "En" "NOPE" "" ""]
    (DeptRow.mk "E" "En" "NOPE" "" "") "NOPE" (by decide) (by decide) (by decide)
    (by decide)
  exact ⟨h.1, h.2.2 okEnv ⟨[⟨"d1", "E", "En", "", ""⟩], []⟩ ⟨"d1", "E", "En", "", ""⟩
    (by decide) (by decide)⟩

/-! ### C9: the resolved mapping covers exactly the input set -/

theorem createLoop_keys (env : Env) (bx : List (String × DeptRow)) :
    ∀ (l : List String) (m : List (String × String)) (w w' : World)
      (m' : List (String × String)),
      createLoop env bx l m w = (w', Except.ok m') →
      ((m.map Prod.fst) ++ l).Nodup →
      m'.map Prod.fst = m.map Prod.fst ++ l := by
  intro l
  induction l with
  | nil =>
    intro m w w' m' h _
    rw [show createLoop env bx [] m w = (w, Except.ok m) from rfl] at h
    injection h with _ h2
    injection h2 with h2
    rw [← h2]
    simp
  | cons ext rest ih =>
    intro m w w' m' h hnd
    have hextm : ext ∉ m.map Prod.fst := by
      intro hc
      obtain ⟨-, -, hdisj⟩ := List.nodup_append.mp hnd
      exact hdisj hc (List.mem_cons_self ext rest)
    have hnd2 : ∀ (did : String),
        (((alSet m ext did).map Prod.fst) ++ rest).Nodup := by
      intro did
      rw [alSet_keys_of_not_mem did hextm]
      rw [show (m.map Prod.fst ++ [ext]) ++ rest = m.map Prod.fst ++ ext :: rest by
        simp]
      exact hnd
    have hfin : ∀ (did : String) (wmid : World),
        createLoop env bx rest (alSet m ext did) wmid = (w', Except.ok m') →
        m'.map Prod.fst = m.map Prod.fst ++ ext :: rest := by
      intro did wmid hrun
      have := ih (alSet m ext did) wmid w' m' hrun (hnd2 did)
      rw [this, alSet_keys_of_not_mem did hextm]
      simp
    rw [createLoop_cons] at h
    rcases hget : alGet bx ext with _ | r
    · rw [hget] at h
      simp at h
    · rw [hget] at h
      simp only [] at h
      rcases hpe : peOf r with _ | p
      · rw [hpe] at h
        rw [if_neg (by simp)] at h
        rcases hres : (ensure_department env w r.name r.external_id none
            (optOf r.label) (optOf r.description)).2 with e | did
        · rw [hres] at h
          simp at h
        · rw [hres] at h
          exact hfin did _ h
      · rw [hpe] at h
        by_cases hb : ((alGet m p).isNone && alContains bx p) = true
        · rw [if_pos hb] at h
          simp at h
        · rw [if_neg hb] at h
          rcases hres : (ensure_department env w r.name r.external_id (alGet m p)
              (optOf r.label) (optOf r.description)).2 with e | did
          · rw [hres] at h
            simp at h
          · rw [hres] at h
            exact hfin did _ h

/-- C9: when `build_hierarchy_and_create` completes without error (after the
validation the main program runs first), the returned mapping has exactly one
entry per input department record, keyed by its external_id (its key list is
a permutation of the input external_ids); consequently the user loop's
department-not-found error fires exactly for users whose dept_external_id is
not among the input departments' external_ids, and it fires before any
create-user call is issued for that record (the world is returned
untouched). -/
theorem C9_mapping_complete (rows : List DeptRow) (env : Env) (w w' : World)
    (m : List (String × String))
    (hv : validate_departments_csv rows = true)
    (hok : build_hierarchy_and_create env w rows = (w', Except.ok m)) :
    (m.map Prod.fst).Perm (rows.map DeptRow.external_id) ∧
    ∀ u rest results w2,
      (u.dept_external_id ∉ rows.map DeptRow.external_id →
        userLoop env m (u :: rest) results w2 =
          (w2, Except.error (Err.unresolvedDepartment u.dept_external_id))) ∧
      (u.dept_external_id ∈ rows.map DeptRow.external_id →
        alContains m u.dept_external_id = true) := by
  obtain ⟨hnd, -⟩ := validate_nodup hv
  have hKF := topoOrder_spec rows hnd
  rw [show build_hierarchy_and_create env w rows =
      (if (topoOrder rows).length ≠ rows.length
       then (w, Except.error Err.cycleDetected)
       else createLoop env (by_ext rows) (topoOrder rows) [] w) from rfl] at hok
  by_cases hlen : (topoOrder rows).length ≠ rows.length
  · rw [if_pos hlen] at hok
    simp at hok
  · rw [if_neg hlen] at hok
    push_neg at hlen
    have hsub : (topoOrder rows).Subperm (rows.map DeptRow.external_id) :=
      List.subperm_of_subset hKF.nodup hKF.sub
    have hperm : (topoOrder rows).Perm (rows.map DeptRow.external_id) :=
      hsub.perm_of_length_le (by rw [List.length_map]; omega)
    have hkeys := createLoop_keys env (by_ext rows) (topoOrder rows) [] w w' m hok
      (by simpa using hKF.nodup)
    simp only [List.map_nil, List.nil_append] at hkeys
    have hpermM : (m.map Prod.fst).Perm (rows.map DeptRow.external_id) := by
      rw [hkeys]
      exact hperm
    refine ⟨hpermM, ?_⟩
    intro u rest results w2
    constructor
    · intro hnotin
      have hcont : alContains m u.dept_external_id = false := by
        rcases hgu : alGet m u.dept_external_id with _ | x
        · simp [alContains, hgu]
        · exfalso
          have hmemk : u.dept_external_id ∈ m.map Prod.fst :=
            List.mem_map.mpr ⟨(u.dept_external_id, x), alGet_mem hgu, rfl⟩
          exact hnotin (hpermM.mem_iff.mp hmemk)
      simp [userLoop, hcont]
    · intro hin
      rw [alContains, alGet_isSome]
      exact hpermM.mem_iff.mpr hin

theorem C9_witness :
    (([("A", "id-A"), ("B", "id-B"), ("C", "id-C")].map Prod.fst).Perm
      (exRows.map DeptRow.external_id)) ∧
    userLoop okEnv [("A", "id-A"), ("B", "id-B"), ("C", "id-C")]
      [⟨"w.user", "W", "Xx", "ZZZ", none, none, none, none, none, none, none⟩] []
      ⟨[], []⟩ =
      (⟨[], []⟩, Except.error (Err.unresolvedDepartment "ZZZ")) := by
  have h := C9_mapping_complete exRows okEnv ⟨[], []⟩
    ⟨[⟨"id-A", "A", "Alpha", "", ""⟩, ⟨"id-B", "B", "Beta", "", ""⟩,
      ⟨"id-C", "C", "Gamma", "", ""⟩],
     [Call.postDept ⟨"Alpha", "A", none, none, none⟩,
      Call.postDept ⟨"Beta", "B", some "id-A", none, none⟩,
      Call.postDept ⟨"Gamma", "C", some "id-B", none, none⟩]⟩
    [("A", "id-A"), ("B", "id-B"), ("C", "id-C")] (by decide) (by decide)
  exact ⟨h.1,
    (h.2 ⟨"w.user", "W", "Xx", "ZZZ", none, none, none, none, none, none, none⟩
      [] [] ⟨[], []⟩).1 (by decide)⟩
